import Mathlib

/-!
# Verification of `tensorflow_transform/saved/saved_transform_io.py`

A shallow embedding of the saved-transform composition module and proofs about
its structured-value codec, signature validation, graph composition and
signature building.

Conventions of the embedding:
* tensor-name and logical-name strings are modelled as `List Char` (`Name`);
* tensor handles are opaque and modelled as `Nat` (`Tensor`);
* Python dicts are modelled as association lists; dict indexing is `mlookup`
  (first matching key) and dict assignment is `dinsert` (replace or append),
  and dict equality `==` is the extensional `dictEqv`;
* Python exceptions become `Except` errors; the mutable default graph is
  threaded explicitly, and is returned alongside the result even on error so
  that the effect of a raising call on the graph stays observable.
-/

namespace SavedTransformIO

/-! ## Definitions: the shallow embedding of the module -/

/-- Logical and tensor names: strings modelled as lists of characters. -/
abbrev Name := List Char

/-- An opaque tensor handle in a graph. -/
abbrev Tensor := Nat

/-- The `$` separator used by the decomposed-name scheme. -/
def sep : Char := '$'

/-- Suffix of the indices part of a decomposed `SparseTensor` name. -/
def sfxIndices : Name := "indices".data

/-- Suffix of the values part of a decomposed `SparseTensor` name. -/
def sfxValues : Name := "values".data

/-- Suffix of the dense-shape part of a decomposed `SparseTensor` name. -/
def sfxShape : Name := "dense_shape".data

/-- Suffix of a decomposed dense `Tensor` name. -/
def sfxTensor : Name := "dense_tensor".data

/-- All four recognized suffixes. -/
def allSfxs : List Name := [sfxIndices, sfxValues, sfxShape, sfxTensor]

/-- The three sparse-part suffixes recognized by `_SPARSE_TENSOR_NAME_RE`. -/
def sparseSfxs : List Name := [sfxIndices, sfxValues, sfxShape]

/-- The newline character, which the Python pattern pieces `.` and `$` treat
specially. -/
def nl : Char := Char.ofNat 10

/-- Model of the Python end-of-pattern anchor `$` (no MULTILINE flag): it
matches at the end of the subject or just before a single trailing newline,
so the effective subject of an end-anchored pattern is the key with one
trailing newline removed. -/
def anchorTrim (key : Name) : Name :=
  if key.getLast? = some nl then key.dropLast else key

/-- Matching of the regular expression `(.*)\$sfx$` against `key` with Python
semantics: the greedy `.*` stem cannot contain a newline, and the `$` anchor
tolerates one trailing newline after the suffix.  So the match succeeds
exactly when `anchorTrim key = p ++ sep :: sfx` for a newline-free stem `p`
(which is then unique), and returns `match.group(1) = p`. -/
def splitTail (key : Name) (sfx : Name) : Option Name :=
  if sfx.length + 1 ≤ (anchorTrim key).length ∧
      (anchorTrim key).drop ((anchorTrim key).length - (sfx.length + 1)) =
        sep :: sfx ∧
      nl ∉ (anchorTrim key).take ((anchorTrim key).length - (sfx.length + 1)) then
    some ((anchorTrim key).take ((anchorTrim key).length - (sfx.length + 1)))
  else
    none

/-- A value of the tensor map: either a dense tensor or a `SparseTensor`
(the only two shapes the module supports). -/
inductive LogicalValue where
  | dense (tensor : Tensor)
  | sparse (indices : Tensor) (values : Tensor) (dense_shape : Tensor)
deriving DecidableEq

/-- A Python dict from names to tensors (`{string: Tensor}`). -/
abbrev TensorMap := List (Name × Tensor)

/-- A Python dict from logical names to dense/sparse values. -/
abbrev ValueMap := List (Name × LogicalValue)

/-- The keys of a dict. -/
def keysOf {α : Type} (m : List (Name × α)) : List Name := m.map Prod.fst

/-- Python dict indexing `m[k]` (as an `Option`): the value at key `k`. -/
def mlookup {α : Type} : List (Name × α) → Name → Option α
  | [], _ => none
  | (k', v) :: rest, k => if k' = k then some v else mlookup rest k

/-- Python dict assignment `m[k] = v`: replaces the binding of `k` if present,
otherwise appends it. -/
def dinsert {α : Type} : List (Name × α) → Name → α → List (Name × α)
  | [], k, v => [(k, v)]
  | (k', v') :: rest, k, v =>
    if k' = k then (k, v) :: rest else (k', v') :: dinsert rest k v

/-- Python dict equality `a == b`: the same keys bound to the same values,
regardless of insertion order. -/
def dictEqv (a b : ValueMap) : Bool :=
  a.all (fun p => decide (mlookup b p.1 = some p.2)) &&
    b.all (fun p => decide (mlookup a p.1 = some p.2))

/-- The flat entries one entry of the input map contributes to the result of
`_decompose_sparse_tensors`: three suffixed keys for a `SparseTensor`, one for
a dense `Tensor`. -/
def decomposeEntry (key : Name) : LogicalValue → TensorMap
  | .sparse i v s =>
    [(key ++ sep :: sfxIndices, i), (key ++ sep :: sfxValues, v),
     (key ++ sep :: sfxShape, s)]
  | .dense t => [(key ++ sep :: sfxTensor, t)]

/-- Model of `_decompose_sparse_tensors`: separates out `SparseTensor`s into their
constituent parts, suffixing each produced column name. -/
def _decompose_sparse_tensors : ValueMap → TensorMap
  | [] => []
  | (key, tensor) :: rest =>
    decomposeEntry key tensor ++ _decompose_sparse_tensors rest

/-- The two failure modes of `_recompose_sparse_tensors`: the explicit
explicit unexpected-key `ValueError` on a key matching neither name pattern,
and the `KeyError` of a failing dict subscript `tensor_map[...]`. -/
inductive RecomposeError where
  | unrecognizedKey (key : Name)
  | missingKey (key : Name)
deriving DecidableEq

/-- Model of `_SPARSE_TENSOR_NAME_RE.match(key)` for `(.*)\$(indices|values|dense_shape)$`:
returns `match.group(1)`.  At most one alternative can match because the
pattern is anchored at the end and none of the three literals is a suffix of
another, so trying them in order loses nothing. -/
def sparseTensorNameMatch (key : Name) : Option Name :=
  match splitTail key sfxIndices with
  | some p => some p
  | none =>
    match splitTail key sfxValues with
    | some p => some p
    | none => splitTail key sfxShape

/-- Model of `_DENSE_TENSOR_NAME_RE.match(key)` for `(.*)\$dense_tensor$`:
returns `match.group(1)`. -/
def denseTensorNameMatch (key : Name) : Option Name :=
  splitTail key sfxTensor

/-- The first loop of `_recompose_sparse_tensors`: partition the keys into the
set of sparse stems and the set of dense stems, raising on the first key that
matches neither pattern.  The Python sets are modelled as first-insertion-order
lists without duplicates. -/
def classifyKeys (sparse_keys dense_keys : List Name) :
    List Name → Except RecomposeError (List Name × List Name)
  | [] => .ok (sparse_keys, dense_keys)
  | key :: rest =>
    match sparseTensorNameMatch key with
    | some p =>
      classifyKeys (if p ∈ sparse_keys then sparse_keys else sparse_keys ++ [p])
        dense_keys rest
    | none =>
      match denseTensorNameMatch key with
      | some p =>
        classifyKeys sparse_keys
          (if p ∈ dense_keys then dense_keys else dense_keys ++ [p]) rest
      | none => .error (.unrecognizedKey key)

/-- Python dict subscript `tensor_map[key]`: raises `KeyError` when absent. -/
def lookupTensor (tensor_map : TensorMap) (key : Name) :
    Except RecomposeError Tensor :=
  match mlookup tensor_map key with
  | some t => .ok t
  | none => .error (.missingKey key)

/-- The second loop of `_recompose_sparse_tensors`: rebuild one `SparseTensor`
per sparse stem from its three sibling entries (subscripts evaluated in the
order indices, values, dense_shape, as in the Python call). -/
def buildSparse (tensor_map : TensorMap) (result : ValueMap) :
    List Name → Except RecomposeError ValueMap
  | [] => .ok result
  | key :: rest =>
    match lookupTensor tensor_map (key ++ sep :: sfxIndices),
        lookupTensor tensor_map (key ++ sep :: sfxValues),
        lookupTensor tensor_map (key ++ sep :: sfxShape) with
    | .ok i, .ok v, .ok s =>
      buildSparse tensor_map (dinsert result key (.sparse i v s)) rest
    | .error e, _, _ => .error e
    | .ok _, .error e, _ => .error e
    | .ok _, .ok _, .error e => .error e

/-- The third loop of `_recompose_sparse_tensors`: copy one dense entry per
dense stem. -/
def buildDense (tensor_map : TensorMap) (result : ValueMap) :
    List Name → Except RecomposeError ValueMap
  | [] => .ok result
  | key :: rest =>
    match lookupTensor tensor_map (key ++ sep :: sfxTensor) with
    | .ok t => buildDense tensor_map (dinsert result key (.dense t)) rest
    | .error e => .error e

/-- Model of `_recompose_sparse_tensors`: undoes `_decompose_sparse_tensors`. -/
def _recompose_sparse_tensors (tensor_map : TensorMap) :
    Except RecomposeError ValueMap :=
  match classifyKeys [] [] (keysOf tensor_map) with
  | .error e => .error e
  | .ok (sparse_keys, dense_keys) =>
    match buildSparse tensor_map [] sparse_keys with
    | .error e => .error e
    | .ok result => buildDense tensor_map result dense_keys

/-- The logical names of the sparse entries of a value map, in order. -/
def sparseNames : ValueMap → List Name
  | [] => []
  | (k, .sparse _ _ _) :: rest => k :: sparseNames rest
  | (_, .dense _) :: rest => sparseNames rest

/-- The logical names of the dense entries of a value map, in order. -/
def denseNames : ValueMap → List Name
  | [] => []
  | (_, .sparse _ _ _) :: rest => denseNames rest
  | (k, .dense _) :: rest => k :: denseNames rest

/-- The sparse entries of a value map, in order. -/
def sparseEntries : ValueMap → ValueMap
  | [] => []
  | (k, .sparse i v s) :: rest => (k, .sparse i v s) :: sparseEntries rest
  | (_, .dense _) :: rest => sparseEntries rest

/-- The dense entries of a value map, in order. -/
def denseEntries : ValueMap → ValueMap
  | [] => []
  | (_, .sparse _ _ _) :: rest => denseEntries rest
  | (k, .dense t) :: rest => (k, .dense t) :: denseEntries rest

/-- The value bound to a logical name (dict indexing with a dummy default,
only used at names that are known to be bound). -/
def valueAt (x : ValueMap) (n : Name) : LogicalValue :=
  (mlookup x n).getD (.dense 0)

/-- A key is recognized when it matches one of the two name patterns. -/
def recognizedKey (key : Name) : Bool :=
  (sparseTensorNameMatch key).isSome || (denseTensorNameMatch key).isSome

/-- Modelled from the spec: the host graph, an externally owned mutable
store of named tensors; composition only ever appends to it.  `scopeCounter`
models the state behind `graph.unique_name`: the number of import scopes
already allocated in this graph. -/
structure Graph where
  nodes : List (Name × Tensor)
  scopeCounter : Nat
deriving DecidableEq

/-- Modelled from the spec: `graph.get_tensor_by_name`, the name-to-tensor
lookup of the graph engine (raises when the name is absent; the raising is
modelled at the call sites). -/
def get_tensor_by_name (g : Graph) (name : Name) : Option Tensor :=
  mlookup g.nodes name

/-- Modelled from the spec: `ops.prepend_name_scope(name, scope)` of the
graph engine, which rehosts a fragment-local tensor name under an import
scope: `scope/name`. -/
def prepend_name_scope (tensor_name scope : Name) : Name :=
  scope ++ '/' :: tensor_name

/-- Modelled from the spec: `graph.unique_name` applied to `transform` with
`mark_as_used=False`, the allocator of a fresh, never-before-used scope name
in this graph (`transform`, `transform_1`, ...; no trailing slash). -/
def graph_unique_name (g : Graph) : Name :=
  if g.scopeCounter = 0 then "transform".data
  else "transform_".data ++ (Nat.repr g.scopeCounter).data

/-- The loaded artifact, as `_load_transform_saved_model` sees it after the
external SavedModel loader has parsed the directory: the two signatures of
`constants.TRANSFORM_SIGNATURE` (logical name to tensor name), the tensor
names defined by the fragment graph, and whether the artifact declares asset
files (`init_feed_dict` non-empty) or saved variables. -/
structure TransformArtifact where
  input_signature : List (Name × Name)
  output_signature : List (Name × Name)
  graphTensors : List Name
  hasAssets : Bool
deriving DecidableEq

/-- The errors the composition operations raise (`NotImplementedError` for
assets; `ValueError`s for unexpected or missing inputs and for codec
failures; the lookup failure of the graph engine for a tensor the contract
promised but the merged graph lacks). -/
inductive ApplyError where
  | assetsUnsupported
  | unexpectedInputs (keys : List Name)
  | importInconsistent (tensor_name : Name)
  | missingRequiredInputs (keys : List Name)
  | codecError (e : RecomposeError)
deriving DecidableEq

/-- Model of `_load_transform_saved_model`: extracts the input and output signatures,
raising the assets-unsupported `NotImplementedError`
when the artifact has asset tensors. -/
def _load_transform_saved_model (art : TransformArtifact) :
    Except ApplyError (List (Name × Name) × List (Name × Name)) :=
  if art.hasAssets then .error .assetsUnsupported
  else .ok (art.input_signature, art.output_signature)

/-- The flat keys the caller supplied that are not in the input signature
(`set(decomposed_input_tensors.keys()) - set(input_signature.keys())`,
kept in key order). -/
def unexpected_inputs_of (input_signature : List (Name × Name))
    (decomposed : TensorMap) : List Name :=
  (keysOf decomposed).filter (fun k => decide (k ∉ keysOf input_signature))

/-- The `input_map` from fragment-local tensor names to caller-supplied
tensors (lines 115–118): `{input_signature[name]: decomposed[name] for name
in decomposed}`.  After the unexpected-input check every decomposed key is in
the signature, so the `filterMap` drops nothing. -/
def papply_input_map (input_signature : List (Name × Name))
    (decomposed : TensorMap) : TensorMap :=
  decomposed.filterMap
    (fun p => (mlookup input_signature p.1).map (fun tn => (tn, p.2)))

/-- Modelled from the spec: `tf_saver.import_meta_graph(meta_graph_def,
import_scope=scope, input_map=input_map)` — merges the fragment into the
host graph, creating one node per fragment tensor name under the scope
prefix, with fresh tensor handles, and consuming the scope name. -/
def import_meta_graph (g : Graph) (graphTensors : List Name) (scope : Name) :
    Graph :=
  { nodes := g.nodes ++ graphTensors.enum.map
      (fun p => (prepend_name_scope p.2 scope, 1000 + g.nodes.length + p.1)),
    scopeCounter := g.scopeCounter + 1 }

/-- The merged graph `partially_apply_saved_transform` builds for artifact
`art` over host graph `g`. -/
def papply_merged_graph (art : TransformArtifact) (g : Graph) : Graph :=
  import_meta_graph g art.graphTensors (graph_unique_name g)

/-- Model of `lookup_remapped_tensor` (lines 144 to 149): a remapped output is the
substituted input tensor; any other output is found in the merged graph
under the scope-prefixed name. -/
def lookup_remapped_tensor (input_map : TensorMap) (g : Graph) (scope : Name)
    (tensor_name : Name) : Except ApplyError Tensor :=
  match mlookup input_map tensor_name with
  | some t => .ok t
  | none =>
    match get_tensor_by_name g (prepend_name_scope tensor_name scope) with
    | some t => .ok t
    | none => .error (.importInconsistent tensor_name)

/-- The `decomposed_output_tensors` comprehension (lines 150–153): resolve
every output-signature entry through `lookup_remapped_tensor`. -/
def resolveOutputs (input_map : TensorMap) (g : Graph) (scope : Name) :
    List (Name × Name) → Except ApplyError TensorMap
  | [] => .ok []
  | (logical_name, tensor_name) :: rest =>
    match lookup_remapped_tensor input_map g scope tensor_name with
    | .error e => .error e
    | .ok t =>
      match resolveOutputs input_map g scope rest with
      | .error e => .error e
      | .ok r => .ok ((logical_name, t) :: r)

/-- The `decomposed_unbound_input_tensors` comprehension (lines 156–161):
every input-signature entry whose decomposed logical name the caller did not
supply, resolved by the scope-prefixed graph lookup (never through the input
map). -/
def resolveUnbound (g : Graph) (scope : Name) (bound : List Name) :
    List (Name × Name) → Except ApplyError TensorMap
  | [] => .ok []
  | (logical_name, tensor_name) :: rest =>
    if logical_name ∈ bound then resolveUnbound g scope bound rest
    else
      match get_tensor_by_name g (prepend_name_scope tensor_name scope) with
      | some t =>
        match resolveUnbound g scope bound rest with
        | .error e => .error e
        | .ok r => .ok ((logical_name, t) :: r)
      | none => .error (.importInconsistent tensor_name)

/-- Model of `partially_apply_saved_transform`: apply a transform graph to existing
tensors.  The default graph is passed and returned explicitly; it is also
returned when an error is raised, which makes the state of the graph at
raise time observable. -/
def partially_apply_saved_transform (art : TransformArtifact)
    (input_tensors : ValueMap) (g : Graph) :
    Except ApplyError (ValueMap × ValueMap) × Graph :=
  let decomposed_input_tensors := _decompose_sparse_tensors input_tensors
  match _load_transform_saved_model art with
  | .error e => (.error e, g)
  | .ok (input_signature, output_signature) =>
    let unexpected_inputs :=
      unexpected_inputs_of input_signature decomposed_input_tensors
    if unexpected_inputs.isEmpty = false then
      (.error (.unexpectedInputs unexpected_inputs), g)
    else
      let input_map := papply_input_map input_signature decomposed_input_tensors
      let scope := graph_unique_name g
      let graph2 := import_meta_graph g art.graphTensors scope
      match resolveOutputs input_map graph2 scope output_signature with
      | .error e => (.error e, graph2)
      | .ok decomposed_output_tensors =>
        match resolveUnbound graph2 scope (keysOf decomposed_input_tensors)
            input_signature with
        | .error e => (.error e, graph2)
        | .ok decomposed_unbound_input_tensors =>
          match _recompose_sparse_tensors decomposed_output_tensors with
          | .error e => (.error (.codecError e), graph2)
          | .ok outputs =>
            match _recompose_sparse_tensors decomposed_unbound_input_tensors with
            | .error e => (.error (.codecError e), graph2)
            | .ok unbound_inputs => (.ok (unbound_inputs, outputs), graph2)

/-- Model of `apply_saved_transform`: the total-binding wrapper.  Raises the
missing-required-inputs `ValueError` naming `unbound_inputs.keys()`
when anything stayed unbound, otherwise returns the outputs. -/
def apply_saved_transform (art : TransformArtifact) (input_tensors : ValueMap)
    (g : Graph) : Except ApplyError ValueMap × Graph :=
  match partially_apply_saved_transform art input_tensors g with
  | (.error e, g2) => (.error e, g2)
  | (.ok (unbound_inputs, outputs), g2) =>
    if unbound_inputs.isEmpty then (.ok outputs, g2)
    else (.error (.missingRequiredInputs (keysOf unbound_inputs)), g2)

/-- The two raise sites of `_predict_signature_def`. -/
inductive PredictSignatureError where
  | emptyInputs
  | emptyOutputs
deriving DecidableEq

/-- The signature a freeze builds: the input and output tensor-info maps
(tensor infos are modelled by the tensors themselves). -/
structure SignatureDef where
  inputs : TensorMap
  outputs : TensorMap
deriving DecidableEq

/-- Model of `_predict_signature_def` (lines 287 to 312): `inputs` is rejected when it is
`None` or empty; `outputs` is checked by `if outputs is None` only, so an
empty `outputs` dict is accepted, although the message of that raise states
that outputs cannot be None or empty. -/
def _predict_signature_def (inputs outputs : Option TensorMap) :
    Except PredictSignatureError SignatureDef :=
  match inputs with
  | none => .error .emptyInputs
  | some ins =>
    if ins.isEmpty then .error .emptyInputs
    else
      match outputs with
      | none => .error .emptyOutputs
      | some outs => .ok { inputs := ins, outputs := outs }

/-- Model of `write_saved_transform_from_session`: decomposes the input and output
value maps and builds the transform signature from them (the SavedModel
builder calls that persist the result are external and preserve the
signature unchanged). -/
def write_saved_transform_from_session (inputs outputs : ValueMap) :
    Except PredictSignatureError SignatureDef :=
  _predict_signature_def (some (_decompose_sparse_tensors inputs))
    (some (_decompose_sparse_tensors outputs))

/-- An example artifact with logical input signature a, b (dense) and logical
output signature c. -/
def artifactAB : TransformArtifact :=
  { input_signature := [("a$dense_tensor".data, "inp_a:0".data),
      ("b$dense_tensor".data, "inp_b:0".data)],
    output_signature := [("c$dense_tensor".data, "out_c:0".data)],
    graphTensors := ["inp_a:0".data, "inp_b:0".data, "out_c:0".data],
    hasAssets := false }

/-- An example artifact with logical input signature a only. -/
def artifactA : TransformArtifact :=
  { input_signature := [("a$dense_tensor".data, "inp_a:0".data)],
    output_signature := [("c$dense_tensor".data, "out_c:0".data)],
    graphTensors := ["inp_a:0".data, "out_c:0".data],
    hasAssets := false }

/-- An empty host graph. -/
def hostGraph0 : Graph := { nodes := [], scopeCounter := 0 }

/-! ## Theorems -/

example :
    _decompose_sparse_tensors [("a".data, .dense 1), ("b".data, .sparse 2 3 4)] =
      [("a$dense_tensor".data, 1), ("b$indices".data, 2), ("b$values".data, 3),
       ("b$dense_shape".data, 4)] := by decide

example :
    _recompose_sparse_tensors
        [("a$dense_tensor".data, 1), ("b$indices".data, 2), ("b$values".data, 3),
         ("b$dense_shape".data, 4)] =
      .ok [("b".data, .sparse 2 3 4), ("a".data, .dense 1)] := by rfl

example :
    _recompose_sparse_tensors [("a$values$dense_tensor".data, 1)] =
      .ok [("a$values".data, .dense 1)] := by rfl

example :
    _recompose_sparse_tensors [("a".data, 1)] =
      .error (.unrecognizedKey "a".data) := by rfl

example :
    _recompose_sparse_tensors [("a$indices".data, 1)] =
      .error (.missingKey "a$values".data) := by rfl

example :
    _recompose_sparse_tensors [("a\nb$indices".data, 1)] =
      .error (.unrecognizedKey "a\nb$indices".data) := by rfl

example :
    _recompose_sparse_tensors [("a$values\n".data, 1)] =
      .error (.missingKey "a$indices".data) := by rfl

theorem splitTail_eq_some {key sfx p : Name} :
    splitTail key sfx = some p ↔
      anchorTrim key = p ++ sep :: sfx ∧ nl ∉ p := by
  unfold splitTail
  split
  · rename_i h
    obtain ⟨hle, hdrop, hnl⟩ := h
    constructor
    · rintro ⟨rfl⟩
      refine ⟨?_, hnl⟩
      conv_lhs => rw [← List.take_append_drop
        ((anchorTrim key).length - (sfx.length + 1)) (anchorTrim key)]
      rw [hdrop]
    · rintro ⟨hk, hp⟩
      have hlen : (anchorTrim key).length = p.length + (sfx.length + 1) := by
        have := congrArg List.length hk
        simpa [List.length_append] using this
      have hidx : (anchorTrim key).length - (sfx.length + 1) = p.length := by
        omega
      rw [hidx, hk, List.take_left]
  · rename_i h
    constructor
    · intro h'; cases h'
    · rintro ⟨hk, hp⟩
      exfalso
      apply h
      have hlen : (anchorTrim key).length = p.length + (sfx.length + 1) := by
        have := congrArg List.length hk
        simpa [List.length_append] using this
      have hidx : (anchorTrim key).length - (sfx.length + 1) = p.length := by
        omega
      refine ⟨by omega, by rw [hidx, hk, List.drop_left], ?_⟩
      rw [hidx, hk, List.take_left]
      exact hp

theorem anchorTrim_append_sfx (k : Name) {sfx : Name} (hsfx : sfx ∈ allSfxs) :
    anchorTrim (k ++ sep :: sfx) = k ++ sep :: sfx := by
  rw [anchorTrim, List.getLast?_append_cons]
  have hlast : (sep :: sfx).getLast? ≠ some nl := by
    rcases (by simpa [allSfxs] using hsfx :
        sfx = sfxIndices ∨ sfx = sfxValues ∨ sfx = sfxShape ∨ sfx = sfxTensor)
      with rfl | rfl | rfl | rfl <;> decide
  rw [if_neg hlast]

theorem splitTail_append_self (k : Name) {sfx : Name} (hk : nl ∉ k)
    (hsfx : sfx ∈ allSfxs) : splitTail (k ++ sep :: sfx) sfx = some k :=
  splitTail_eq_some.mpr ⟨anchorTrim_append_sfx k hsfx, hk⟩

/-- Auxiliary: a list cannot be written both as `p ++ sep :: s` and as
`q ++ sep :: t` with `s` strictly shorter than `t` unless `sep` occurs
inside `t`. -/
theorem split_skew {p q s t : Name} (hlt : s.length < t.length) (ht : sep ∉ t)
    (h : p ++ sep :: s = q ++ sep :: t) : False := by
  have hlen : p.length = q.length + (t.length - s.length) := by
    have hl := congrArg List.length h
    simp [List.length_append] at hl
    omega
  have h1 : (p ++ sep :: s).drop p.length = sep :: s := List.drop_left p _
  rw [h, hlen, ← List.drop_drop, List.drop_left q] at h1
  have hd1 : t.length - s.length = (t.length - s.length - 1) + 1 := by omega
  rw [hd1, List.drop_succ_cons] at h1
  exact ht (List.mem_of_mem_drop (h1 ▸ List.mem_cons_self sep _))

/-- A list cannot end in two different `$`-delimited suffix tokens when
neither token contains the separator: the final separator position is
determined by the tokens, so the stem/suffix split is unique. -/
theorem split_unique {p q s t : Name} (hs : sep ∉ s) (ht : sep ∉ t)
    (h : p ++ sep :: s = q ++ sep :: t) : p = q ∧ s = t := by
  rcases lt_trichotomy s.length t.length with hlt | heq | hgt
  · exact absurd h (fun h => split_skew hlt ht h)
  · have hpq : p.length = q.length := by
      have hl := congrArg List.length h
      simp [List.length_append] at hl
      omega
    obtain ⟨h1, h2⟩ := List.append_inj h hpq
    exact ⟨h1, by simpa using h2⟩
  · exact absurd h.symm (fun h => split_skew hgt hs h)

theorem sep_not_mem_sfx : ∀ sfx ∈ allSfxs, sep ∉ sfx := by decide

theorem splitTail_append_ne {k : Name} {s t : Name} (hs : sep ∉ s) (ht : sep ∉ t)
    (hne : s ≠ t) (hsall : s ∈ allSfxs) : splitTail (k ++ sep :: s) t = none := by
  cases hsp : splitTail (k ++ sep :: s) t with
  | none => rfl
  | some p =>
    have hsome := (splitTail_eq_some.mp hsp).1
    rw [anchorTrim_append_sfx k hsall] at hsome
    exact absurd (split_unique hs ht hsome).2 hne

theorem sep_not_mem_indices : sep ∉ sfxIndices := by decide

theorem sep_not_mem_values : sep ∉ sfxValues := by decide

theorem sep_not_mem_shape : sep ∉ sfxShape := by decide

theorem sep_not_mem_tensor : sep ∉ sfxTensor := by decide

theorem sparseSfxs_sub_allSfxs : ∀ s ∈ sparseSfxs, s ∈ allSfxs := by decide

theorem sparse_sfx_ne_tensor : ∀ s ∈ sparseSfxs, s ≠ sfxTensor := by decide

theorem sparse_match_indices (k : Name) (hk : nl ∉ k) :
    sparseTensorNameMatch (k ++ sep :: sfxIndices) = some k := by
  unfold sparseTensorNameMatch
  rw [splitTail_append_self k hk (by simp [allSfxs])]

theorem sparse_match_values (k : Name) (hk : nl ∉ k) :
    sparseTensorNameMatch (k ++ sep :: sfxValues) = some k := by
  unfold sparseTensorNameMatch
  rw [splitTail_append_ne sep_not_mem_values sep_not_mem_indices (by decide)
      (by simp [allSfxs]),
    splitTail_append_self k hk (by simp [allSfxs])]

theorem sparse_match_shape (k : Name) (hk : nl ∉ k) :
    sparseTensorNameMatch (k ++ sep :: sfxShape) = some k := by
  unfold sparseTensorNameMatch
  rw [splitTail_append_ne sep_not_mem_shape sep_not_mem_indices (by decide)
      (by simp [allSfxs]),
    splitTail_append_ne sep_not_mem_shape sep_not_mem_values (by decide)
      (by simp [allSfxs]),
    splitTail_append_self k hk (by simp [allSfxs])]

theorem sparse_match_tensor (k : Name) :
    sparseTensorNameMatch (k ++ sep :: sfxTensor) = none := by
  unfold sparseTensorNameMatch
  rw [splitTail_append_ne sep_not_mem_tensor sep_not_mem_indices (by decide)
      (by simp [allSfxs]),
    splitTail_append_ne sep_not_mem_tensor sep_not_mem_values (by decide)
      (by simp [allSfxs]),
    splitTail_append_ne sep_not_mem_tensor sep_not_mem_shape (by decide)
      (by simp [allSfxs])]

theorem dense_match_tensor (k : Name) (hk : nl ∉ k) :
    denseTensorNameMatch (k ++ sep :: sfxTensor) = some k :=
  splitTail_append_self k hk (by simp [allSfxs])

theorem dense_match_indices (k : Name) :
    denseTensorNameMatch (k ++ sep :: sfxIndices) = none :=
  splitTail_append_ne sep_not_mem_indices sep_not_mem_tensor (by decide)
    (by simp [allSfxs])

theorem dense_match_values (k : Name) :
    denseTensorNameMatch (k ++ sep :: sfxValues) = none :=
  splitTail_append_ne sep_not_mem_values sep_not_mem_tensor (by decide)
    (by simp [allSfxs])

theorem dense_match_shape (k : Name) :
    denseTensorNameMatch (k ++ sep :: sfxShape) = none :=
  splitTail_append_ne sep_not_mem_shape sep_not_mem_tensor (by decide)
    (by simp [allSfxs])

theorem sparse_match_inv {key p : Name} (h : sparseTensorNameMatch key = some p) :
    nl ∉ p ∧ (anchorTrim key = p ++ sep :: sfxIndices ∨
      anchorTrim key = p ++ sep :: sfxValues ∨
      anchorTrim key = p ++ sep :: sfxShape) := by
  unfold sparseTensorNameMatch at h
  cases h1 : splitTail key sfxIndices with
  | some q =>
    rw [h1] at h
    cases h
    obtain ⟨hk, hp⟩ := splitTail_eq_some.mp h1
    exact ⟨hp, Or.inl hk⟩
  | none =>
    rw [h1] at h
    cases h2 : splitTail key sfxValues with
    | some q =>
      rw [h2] at h
      cases h
      obtain ⟨hk, hp⟩ := splitTail_eq_some.mp h2
      exact ⟨hp, Or.inr (Or.inl hk)⟩
    | none =>
      rw [h2] at h
      obtain ⟨hk, hp⟩ := splitTail_eq_some.mp h
      exact ⟨hp, Or.inr (Or.inr hk)⟩

theorem dense_match_inv {key p : Name} (h : denseTensorNameMatch key = some p) :
    anchorTrim key = p ++ sep :: sfxTensor ∧ nl ∉ p :=
  splitTail_eq_some.mp h

theorem mlookup_append_right {α : Type} {a : List (Name × α)} {k : Name}
    (b : List (Name × α)) (h : mlookup a k = none) :
    mlookup (a ++ b) k = mlookup b k := by
  induction a with
  | nil => rfl
  | cons p rest ih =>
    obtain ⟨k', v⟩ := p
    by_cases hk : k' = k
    · simp [mlookup, hk] at h
    · simp only [mlookup, hk, if_false, List.cons_append] at h ⊢
      exact ih h

theorem mlookup_append_left {α : Type} {a : List (Name × α)} {k : Name} {v : α}
    (b : List (Name × α)) (h : mlookup a k = some v) :
    mlookup (a ++ b) k = some v := by
  induction a with
  | nil => cases h
  | cons p rest ih =>
    obtain ⟨k', v'⟩ := p
    by_cases hk : k' = k
    · simp only [mlookup, hk, if_true] at h ⊢
      exact h
    · simp only [mlookup, hk, if_false, List.cons_append] at h ⊢
      exact ih h

theorem keysOf_nil {α : Type} : keysOf ([] : List (Name × α)) = [] := rfl

theorem keysOf_cons {α : Type} (k : Name) (v : α) (rest : List (Name × α)) :
    keysOf ((k, v) :: rest) = k :: keysOf rest := rfl

theorem mlookup_isSome_iff_mem_keys {α : Type} {m : List (Name × α)} {k : Name} :
    (mlookup m k).isSome = true ↔ k ∈ keysOf m := by
  induction m with
  | nil => simp [mlookup, keysOf_nil]
  | cons p rest ih =>
    obtain ⟨k', v⟩ := p
    by_cases hk : k' = k
    · subst hk
      simp [mlookup, keysOf_cons]
    · simp only [mlookup, hk, if_false, keysOf_cons, List.mem_cons, ih]
      exact (or_iff_right (Ne.symm hk)).symm

theorem mlookup_eq_none_iff_not_mem {α : Type} {m : List (Name × α)} {k : Name} :
    mlookup m k = none ↔ k ∉ keysOf m := by
  rw [← mlookup_isSome_iff_mem_keys]
  cases mlookup m k <;> simp

theorem mlookup_of_mem_nodup {α : Type} {m : List (Name × α)} {k : Name} {v : α}
    (hnd : (keysOf m).Nodup) (hmem : (k, v) ∈ m) : mlookup m k = some v := by
  induction m with
  | nil => cases hmem
  | cons p rest ih =>
    obtain ⟨k', v'⟩ := p
    simp only [keysOf, List.map_cons, List.nodup_cons] at hnd
    rcases List.mem_cons.mp hmem with heq | htail
    · cases heq
      simp [mlookup]
    · have hk : k' ≠ k := by
        rintro rfl
        exact hnd.1 (List.mem_map.mpr ⟨(k', v), htail, rfl⟩)
      simp only [mlookup, hk, if_false]
      exact ih hnd.2 htail

theorem mem_of_mlookup_eq_some {α : Type} {m : List (Name × α)} {k : Name} {v : α}
    (h : mlookup m k = some v) : (k, v) ∈ m := by
  induction m with
  | nil => cases h
  | cons p rest ih =>
    obtain ⟨k', v'⟩ := p
    by_cases hk : k' = k
    · subst hk
      simp only [mlookup, if_true] at h
      cases h
      exact List.mem_cons_self _ _
    · simp only [mlookup, hk, if_false] at h
      exact List.mem_cons_of_mem _ (ih h)

theorem dinsert_of_not_mem {α : Type} {m : List (Name × α)} {k : Name} (v : α)
    (h : k ∉ keysOf m) : dinsert m k v = m ++ [(k, v)] := by
  induction m with
  | nil => rfl
  | cons p rest ih =>
    obtain ⟨k', v'⟩ := p
    simp only [keysOf, List.map_cons, List.mem_cons] at h
    push_neg at h
    simp only [dinsert, Ne.symm h.1, if_false, List.cons_append]
    rw [ih h.2]

theorem keysOf_append {α : Type} (a b : List (Name × α)) :
    keysOf (a ++ b) = keysOf a ++ keysOf b := by
  simp [keysOf]

theorem sparseNames_sublist (x : ValueMap) : (sparseNames x).Sublist (keysOf x) := by
  induction x with
  | nil => simp [sparseNames, keysOf_nil]
  | cons p rest ih =>
    obtain ⟨k, v⟩ := p
    cases v with
    | dense t =>
      rw [keysOf_cons, sparseNames]
      exact ih.trans (List.sublist_cons_self k (keysOf rest))
    | sparse i vv s =>
      rw [keysOf_cons]
      exact List.Sublist.cons₂ k ih

theorem denseNames_sublist (x : ValueMap) : (denseNames x).Sublist (keysOf x) := by
  induction x with
  | nil => simp [denseNames, keysOf_nil]
  | cons p rest ih =>
    obtain ⟨k, v⟩ := p
    cases v with
    | sparse i vv s =>
      rw [keysOf_cons, denseNames]
      exact ih.trans (List.sublist_cons_self k (keysOf rest))
    | dense t =>
      rw [keysOf_cons]
      exact List.Sublist.cons₂ k ih

theorem sparseNames_spec {x : ValueMap} {n : Name} (h : n ∈ sparseNames x) :
    ∃ i v s, (n, LogicalValue.sparse i v s) ∈ x := by
  induction x with
  | nil => cases h
  | cons p rest ih =>
    obtain ⟨k, v⟩ := p
    cases v with
    | dense t =>
      obtain ⟨i, vv, s, hm⟩ := ih h
      exact ⟨i, vv, s, List.mem_cons_of_mem _ hm⟩
    | sparse i vv s =>
      rcases List.mem_cons.mp h with rfl | htail
      · exact ⟨i, vv, s, List.mem_cons_self _ _⟩
      · obtain ⟨i', v', s', hm⟩ := ih htail
        exact ⟨i', v', s', List.mem_cons_of_mem _ hm⟩

theorem denseNames_spec {x : ValueMap} {n : Name} (h : n ∈ denseNames x) :
    ∃ t, (n, LogicalValue.dense t) ∈ x := by
  induction x with
  | nil => cases h
  | cons p rest ih =>
    obtain ⟨k, v⟩ := p
    cases v with
    | sparse i vv s =>
      obtain ⟨t, hm⟩ := ih h
      exact ⟨t, List.mem_cons_of_mem _ hm⟩
    | dense t =>
      rcases List.mem_cons.mp h with rfl | htail
      · exact ⟨t, List.mem_cons_self _ _⟩
      · obtain ⟨t', hm⟩ := ih htail
        exact ⟨t', List.mem_cons_of_mem _ hm⟩

/-- Every key of the decomposed map is a logical name of the source map
followed by the separator and one of the four suffixes. -/
theorem decompose_keys_shape {x : ValueMap} {key : Name}
    (h : key ∈ keysOf (_decompose_sparse_tensors x)) :
    ∃ name sfx, name ∈ keysOf x ∧ sfx ∈ allSfxs ∧ key = name ++ sep :: sfx := by
  induction x with
  | nil => cases h
  | cons p rest ih =>
    obtain ⟨k, v⟩ := p
    rw [_decompose_sparse_tensors, keysOf_append] at h
    rcases List.mem_append.mp h with hblock | htail
    · cases v with
      | dense t =>
        simp only [decomposeEntry, keysOf_cons, keysOf_nil, List.mem_singleton] at hblock
        exact ⟨k, sfxTensor, by simp [keysOf_cons], by simp [allSfxs], hblock⟩
      | sparse i vv s =>
        simp only [decomposeEntry, keysOf_cons, keysOf_nil, List.mem_cons,
          List.not_mem_nil, or_false] at hblock
        rcases hblock with rfl | rfl | rfl
        · exact ⟨k, sfxIndices, by simp [keysOf_cons], by simp [allSfxs], rfl⟩
        · exact ⟨k, sfxValues, by simp [keysOf_cons], by simp [allSfxs], rfl⟩
        · exact ⟨k, sfxShape, by simp [keysOf_cons], by simp [allSfxs], rfl⟩
    · obtain ⟨name, sfx, hn, hs, hk⟩ := ih htail
      exact ⟨name, sfx, by simp [keysOf_cons, hn], hs, hk⟩

/-- A decomposed key built from a name that does not occur in `x` does not
occur among the keys of the decomposed map of `x`. -/
theorem not_mem_decompose {x : ValueMap} {k sfx : Name}
    (hsfx : sfx ∈ allSfxs) (hk : k ∉ keysOf x) :
    (k ++ sep :: sfx) ∉ keysOf (_decompose_sparse_tensors x) := by
  intro hmem
  obtain ⟨name, sfx', hn, hs', heq⟩ := decompose_keys_shape hmem
  obtain ⟨hname, -⟩ := split_unique (sep_not_mem_sfx sfx hsfx) (sep_not_mem_sfx sfx' hs') heq
  exact hk (hname ▸ hn)

/-- Looking a decomposed sparse part up in the decomposed map recovers the
corresponding component of the original `SparseTensor` entry. -/
theorem decompose_lookup_sparse {x : ValueMap} {k : Name} {i v s : Tensor}
    (hnd : (keysOf x).Nodup) (hmem : (k, LogicalValue.sparse i v s) ∈ x) :
    mlookup (_decompose_sparse_tensors x) (k ++ sep :: sfxIndices) = some i ∧
    mlookup (_decompose_sparse_tensors x) (k ++ sep :: sfxValues) = some v ∧
    mlookup (_decompose_sparse_tensors x) (k ++ sep :: sfxShape) = some s := by
  induction x with
  | nil => cases hmem
  | cons p rest ih =>
    obtain ⟨k', v'⟩ := p
    rw [keysOf_cons, List.nodup_cons] at hnd
    rcases List.mem_cons.mp hmem with heq | htail
    · cases heq
      rw [_decompose_sparse_tensors]
      refine ⟨?_, ?_, ?_⟩ <;>
        · apply mlookup_append_left
          simp [decomposeEntry, mlookup, List.append_cancel_left_eq, sfxIndices,
            sfxValues, sfxShape]
    · have hk : k' ≠ k := by
        rintro rfl
        exact hnd.1 (List.mem_map.mpr ⟨(k', .sparse i v s), htail, rfl⟩)
      obtain ⟨h1, h2, h3⟩ := ih hnd.2 htail
      rw [_decompose_sparse_tensors]
      have hnone : ∀ sfx ∈ allSfxs, mlookup (decomposeEntry k' v') (k ++ sep :: sfx) = none := by
        intro sfx hsfx
        rw [mlookup_eq_none_iff_not_mem]
        intro hmem'
        have : k ++ sep :: sfx ∈ keysOf (_decompose_sparse_tensors [(k', v')]) := by
          rw [_decompose_sparse_tensors, _decompose_sparse_tensors, List.append_nil]
          exact hmem'
        obtain ⟨name, sfx', hn, hs', heq⟩ := decompose_keys_shape this
        obtain ⟨hname, -⟩ := split_unique (sep_not_mem_sfx sfx hsfx) (sep_not_mem_sfx sfx' hs') heq
        rw [keysOf_cons, keysOf_nil] at hn
        simp at hn
        exact hk (hn ▸ hname ▸ rfl)
      refine ⟨?_, ?_, ?_⟩
      · rw [mlookup_append_right _ (hnone sfxIndices (by simp [allSfxs]))]; exact h1
      · rw [mlookup_append_right _ (hnone sfxValues (by simp [allSfxs]))]; exact h2
      · rw [mlookup_append_right _ (hnone sfxShape (by simp [allSfxs]))]; exact h3

/-- Looking a decomposed dense key up in the decomposed map recovers the
original dense entry. -/
theorem decompose_lookup_dense {x : ValueMap} {k : Name} {t : Tensor}
    (hnd : (keysOf x).Nodup) (hmem : (k, LogicalValue.dense t) ∈ x) :
    mlookup (_decompose_sparse_tensors x) (k ++ sep :: sfxTensor) = some t := by
  induction x with
  | nil => cases hmem
  | cons p rest ih =>
    obtain ⟨k', v'⟩ := p
    rw [keysOf_cons, List.nodup_cons] at hnd
    rcases List.mem_cons.mp hmem with heq | htail
    · cases heq
      rw [_decompose_sparse_tensors]
      apply mlookup_append_left
      simp [decomposeEntry, mlookup]
    · have hk : k' ≠ k := by
        rintro rfl
        exact hnd.1 (List.mem_map.mpr ⟨(k', .dense t), htail, rfl⟩)
      have h1 := ih hnd.2 htail
      rw [_decompose_sparse_tensors]
      have hnone : mlookup (decomposeEntry k' v') (k ++ sep :: sfxTensor) = none := by
        rw [mlookup_eq_none_iff_not_mem]
        intro hmem'
        have : k ++ sep :: sfxTensor ∈ keysOf (_decompose_sparse_tensors [(k', v')]) := by
          rw [_decompose_sparse_tensors, _decompose_sparse_tensors, List.append_nil]
          exact hmem'
        obtain ⟨name, sfx', hn, hs', heq⟩ := decompose_keys_shape this
        obtain ⟨hname, -⟩ := split_unique sep_not_mem_tensor (sep_not_mem_sfx sfx' hs') heq
        rw [keysOf_cons, keysOf_nil] at hn
        simp at hn
        exact hk (hn ▸ hname ▸ rfl)
      rw [mlookup_append_right _ hnone]
      exact h1

/-- The classification loop maps the decomposed keys of `x` back to exactly the
sparse and dense logical names of `x`, appended to the incoming accumulators. -/
theorem classify_decompose (x : ValueMap) (sk dk : List Name)
    (hnd : (keysOf x).Nodup) (hnl : ∀ n ∈ keysOf x, nl ∉ n)
    (hsk : ∀ n ∈ keysOf x, n ∉ sk) (hdk : ∀ n ∈ keysOf x, n ∉ dk) :
    classifyKeys sk dk (keysOf (_decompose_sparse_tensors x)) =
      .ok (sk ++ sparseNames x, dk ++ denseNames x) := by
  induction x generalizing sk dk with
  | nil => simp [classifyKeys, _decompose_sparse_tensors, keysOf_nil, sparseNames, denseNames]
  | cons p rest ih =>
    obtain ⟨k, v⟩ := p
    rw [keysOf_cons, List.nodup_cons] at hnd
    have hknl : nl ∉ k := hnl k (by rw [keysOf_cons]; exact List.mem_cons_self _ _)
    have hrestnl : ∀ n ∈ keysOf rest, nl ∉ n := fun n hn =>
      hnl n (by rw [keysOf_cons]; exact List.mem_cons_of_mem _ hn)
    have hknotsk : k ∉ sk := hsk k (by rw [keysOf_cons]; exact List.mem_cons_self _ _)
    have hknotdk : k ∉ dk := hdk k (by rw [keysOf_cons]; exact List.mem_cons_self _ _)
    cases v with
    | sparse i vv s =>
      rw [_decompose_sparse_tensors, keysOf_append]
      show classifyKeys sk dk
        ((k ++ sep :: sfxIndices) :: (k ++ sep :: sfxValues) ::
          (k ++ sep :: sfxShape) :: keysOf (_decompose_sparse_tensors rest)) = _
      simp only [classifyKeys, sparse_match_indices k hknl,
        sparse_match_values k hknl, sparse_match_shape k hknl, hknotsk,
        if_false, List.mem_append, List.mem_singleton, or_true, if_true]
      rw [ih (sk ++ [k]) dk hnd.2 hrestnl ?_ ?_]
      · rw [sparseNames, denseNames, List.append_assoc, List.singleton_append]
      · intro n hn
        simp only [List.mem_append, List.mem_singleton]
        push_neg
        refine ⟨hsk n (by rw [keysOf_cons]; exact List.mem_cons_of_mem _ hn), ?_⟩
        rintro rfl
        exact hnd.1 hn
      · intro n hn
        exact hdk n (by rw [keysOf_cons]; exact List.mem_cons_of_mem _ hn)
    | dense t =>
      rw [_decompose_sparse_tensors, keysOf_append]
      show classifyKeys sk dk
        ((k ++ sep :: sfxTensor) :: keysOf (_decompose_sparse_tensors rest)) = _
      simp only [classifyKeys, sparse_match_tensor, dense_match_tensor k hknl,
        hknotdk, if_false]
      rw [ih sk (dk ++ [k]) hnd.2 hrestnl ?_ ?_]
      · rw [sparseNames, denseNames, List.append_assoc, List.singleton_append]
      · intro n hn
        exact hsk n (by rw [keysOf_cons]; exact List.mem_cons_of_mem _ hn)
      · intro n hn
        simp only [List.mem_append, List.mem_singleton]
        push_neg
        refine ⟨hdk n (by rw [keysOf_cons]; exact List.mem_cons_of_mem _ hn), ?_⟩
        rintro rfl
        exact hnd.1 hn

theorem valueAt_of_mem {x : ValueMap} {n : Name} {e : LogicalValue}
    (hnd : (keysOf x).Nodup) (h : (n, e) ∈ x) : valueAt x n = e := by
  rw [valueAt, mlookup_of_mem_nodup hnd h]
  rfl

/-- Rebuilding the sparse entries from the decomposed map of `x` appends to
the accumulator exactly one recovered `SparseTensor` entry per listed name. -/
theorem buildSparse_decompose (x : ValueMap) (hnd : (keysOf x).Nodup)
    (names : List Name) (acc : ValueMap) (hnames : names.Nodup)
    (hspec : ∀ n ∈ names, ∃ i v s, (n, LogicalValue.sparse i v s) ∈ x)
    (hacc : ∀ n ∈ names, n ∉ keysOf acc) :
    buildSparse (_decompose_sparse_tensors x) acc names =
      .ok (acc ++ names.map (fun n => (n, valueAt x n))) := by
  induction names generalizing acc with
  | nil => simp [buildSparse]
  | cons n rest ih =>
    obtain ⟨i, v, s, hmem⟩ := hspec n (List.mem_cons_self _ _)
    obtain ⟨h1, h2, h3⟩ := decompose_lookup_sparse hnd hmem
    rw [List.nodup_cons] at hnames
    simp only [buildSparse, lookupTensor, h1, h2, h3]
    have hval : valueAt x n = LogicalValue.sparse i v s := valueAt_of_mem hnd hmem
    rw [dinsert_of_not_mem _ (hacc n (List.mem_cons_self _ _))]
    rw [ih (acc ++ [(n, LogicalValue.sparse i v s)]) hnames.2
      (fun n' hn' => hspec n' (List.mem_cons_of_mem _ hn')) ?_]
    · rw [List.append_assoc, List.map_cons, hval]
      rfl
    · intro n' hn'
      rw [keysOf_append]
      simp only [List.mem_append, keysOf_cons, keysOf_nil, List.mem_singleton]
      push_neg
      refine ⟨hacc n' (List.mem_cons_of_mem _ hn'), ?_⟩
      rintro rfl
      exact hnames.1 hn'

/-- Rebuilding the dense entries from the decomposed map of `x` appends to the
accumulator exactly one recovered dense entry per listed name. -/
theorem buildDense_decompose (x : ValueMap) (hnd : (keysOf x).Nodup)
    (names : List Name) (acc : ValueMap) (hnames : names.Nodup)
    (hspec : ∀ n ∈ names, ∃ t, (n, LogicalValue.dense t) ∈ x)
    (hacc : ∀ n ∈ names, n ∉ keysOf acc) :
    buildDense (_decompose_sparse_tensors x) acc names =
      .ok (acc ++ names.map (fun n => (n, valueAt x n))) := by
  induction names generalizing acc with
  | nil => simp [buildDense]
  | cons n rest ih =>
    obtain ⟨t, hmem⟩ := hspec n (List.mem_cons_self _ _)
    have h1 := decompose_lookup_dense hnd hmem
    rw [List.nodup_cons] at hnames
    simp only [buildDense, lookupTensor, h1]
    have hval : valueAt x n = LogicalValue.dense t := valueAt_of_mem hnd hmem
    rw [dinsert_of_not_mem _ (hacc n (List.mem_cons_self _ _))]
    rw [ih (acc ++ [(n, LogicalValue.dense t)]) hnames.2
      (fun n' hn' => hspec n' (List.mem_cons_of_mem _ hn')) ?_]
    · rw [List.append_assoc, List.map_cons, hval]
      rfl
    · intro n' hn'
      rw [keysOf_append]
      simp only [List.mem_append, keysOf_cons, keysOf_nil, List.mem_singleton]
      push_neg
      refine ⟨hacc n' (List.mem_cons_of_mem _ hn'), ?_⟩
      rintro rfl
      exact hnames.1 hn'

theorem sparseEntries_eq_map {x : ValueMap} (hnd : (keysOf x).Nodup) :
    (sparseNames x).map (fun n => (n, valueAt x n)) = sparseEntries x := by
  induction x with
  | nil => rfl
  | cons p rest ih =>
    obtain ⟨k, v⟩ := p
    rw [keysOf_cons, List.nodup_cons] at hnd
    have htail : ∀ n ∈ sparseNames rest, valueAt ((k, v) :: rest) n = valueAt rest n := by
      intro n hn
      have hne : k ≠ n := by
        rintro rfl
        exact hnd.1 ((sparseNames_sublist rest).mem hn)
      rw [valueAt, valueAt, mlookup, if_neg hne]
    have hmapeq : List.map (fun n => (n, valueAt ((k, v) :: rest) n)) (sparseNames rest)
        = List.map (fun n => (n, valueAt rest n)) (sparseNames rest) :=
      List.map_congr_left (fun n hn => by rw [htail n hn])
    cases v with
    | sparse i vv s =>
      rw [sparseNames, sparseEntries, List.map_cons]
      congr 1
      · rw [valueAt, mlookup, if_pos rfl]
        rfl
      · rw [hmapeq]
        exact ih hnd.2
    | dense t =>
      rw [sparseNames, sparseEntries, hmapeq]
      exact ih hnd.2

theorem denseEntries_eq_map {x : ValueMap} (hnd : (keysOf x).Nodup) :
    (denseNames x).map (fun n => (n, valueAt x n)) = denseEntries x := by
  induction x with
  | nil => rfl
  | cons p rest ih =>
    obtain ⟨k, v⟩ := p
    rw [keysOf_cons, List.nodup_cons] at hnd
    have htail : ∀ n ∈ denseNames rest, valueAt ((k, v) :: rest) n = valueAt rest n := by
      intro n hn
      have hne : k ≠ n := by
        rintro rfl
        exact hnd.1 ((denseNames_sublist rest).mem hn)
      rw [valueAt, valueAt, mlookup, if_neg hne]
    have hmapeq : List.map (fun n => (n, valueAt ((k, v) :: rest) n)) (denseNames rest)
        = List.map (fun n => (n, valueAt rest n)) (denseNames rest) :=
      List.map_congr_left (fun n hn => by rw [htail n hn])
    cases v with
    | dense t =>
      rw [denseNames, denseEntries, List.map_cons]
      congr 1
      · rw [valueAt, mlookup, if_pos rfl]
        rfl
      · rw [hmapeq]
        exact ih hnd.2
    | sparse i vv s =>
      rw [denseNames, denseEntries, hmapeq]
      exact ih hnd.2

theorem keysOf_sparseEntries (x : ValueMap) :
    keysOf (sparseEntries x) = sparseNames x := by
  induction x with
  | nil => rfl
  | cons p rest ih =>
    obtain ⟨k, v⟩ := p
    cases v with
    | sparse i vv s => rw [sparseEntries, sparseNames, keysOf_cons, ih]
    | dense t => rw [sparseEntries, sparseNames, ih]

theorem keysOf_denseEntries (x : ValueMap) :
    keysOf (denseEntries x) = denseNames x := by
  induction x with
  | nil => rfl
  | cons p rest ih =>
    obtain ⟨k, v⟩ := p
    cases v with
    | dense t => rw [denseEntries, denseNames, keysOf_cons, ih]
    | sparse i vv s => rw [denseEntries, denseNames, ih]

/-- Under distinct logical names, no name is both sparse and dense. -/
theorem sparse_dense_disjoint {x : ValueMap} (hnd : (keysOf x).Nodup) :
    (sparseNames x).Disjoint (denseNames x) := by
  induction x with
  | nil => intro n h; cases h
  | cons p rest ih =>
    obtain ⟨k, v⟩ := p
    rw [keysOf_cons, List.nodup_cons] at hnd
    cases v with
    | sparse i vv s =>
      intro n hs hd
      rw [sparseNames] at hs
      rw [denseNames] at hd
      rcases List.mem_cons.mp hs with rfl | hs'
      · exact hnd.1 ((denseNames_sublist rest).mem hd)
      · exact ih hnd.2 hs' hd
    | dense t =>
      intro n hs hd
      rw [sparseNames] at hs
      rw [denseNames] at hd
      rcases List.mem_cons.mp hd with rfl | hd'
      · exact hnd.1 ((sparseNames_sublist rest).mem hs)
      · exact ih hnd.2 hs hd'

theorem sparseEntries_subset {x : ValueMap} {p : Name × LogicalValue}
    (h : p ∈ sparseEntries x) : p ∈ x := by
  induction x with
  | nil => cases h
  | cons q rest ih =>
    obtain ⟨k, v⟩ := q
    cases v with
    | sparse i vv s =>
      rw [sparseEntries] at h
      rcases List.mem_cons.mp h with rfl | h'
      · exact List.mem_cons_self _ _
      · exact List.mem_cons_of_mem _ (ih h')
    | dense t =>
      rw [sparseEntries] at h
      exact List.mem_cons_of_mem _ (ih h)

theorem denseEntries_subset {x : ValueMap} {p : Name × LogicalValue}
    (h : p ∈ denseEntries x) : p ∈ x := by
  induction x with
  | nil => cases h
  | cons q rest ih =>
    obtain ⟨k, v⟩ := q
    cases v with
    | dense t =>
      rw [denseEntries] at h
      rcases List.mem_cons.mp h with rfl | h'
      · exact List.mem_cons_self _ _
      · exact List.mem_cons_of_mem _ (ih h')
    | sparse i vv s =>
      rw [denseEntries] at h
      exact List.mem_cons_of_mem _ (ih h)

theorem mem_entries_of_mem {x : ValueMap} {p : Name × LogicalValue}
    (h : p ∈ x) : p ∈ sparseEntries x ++ denseEntries x := by
  induction x with
  | nil => cases h
  | cons q rest ih =>
    obtain ⟨k, v⟩ := q
    rcases List.mem_cons.mp h with rfl | h'
    · cases v with
      | sparse i vv s =>
        rw [sparseEntries]
        exact List.mem_append_left _ (List.mem_cons_self _ _)
      | dense t =>
        rw [denseEntries]
        exact List.mem_append_right _ (List.mem_cons_self _ _)
    · have := ih h'
      rcases List.mem_append.mp this with hl | hr
      · apply List.mem_append_left
        cases v with
        | sparse i vv s => exact List.mem_cons_of_mem _ hl
        | dense t => exact hl
      · apply List.mem_append_right
        cases v with
        | sparse i vv s => exact hr
        | dense t => exact List.mem_cons_of_mem _ hr

theorem entries_keys_nodup {x : ValueMap} (hnd : (keysOf x).Nodup) :
    (keysOf (sparseEntries x ++ denseEntries x)).Nodup := by
  rw [keysOf_append, keysOf_sparseEntries, keysOf_denseEntries]
  exact List.Nodup.append ((sparseNames_sublist x).nodup hnd)
    ((denseNames_sublist x).nodup hnd) (sparse_dense_disjoint hnd)

/-- Recomposing the decomposition of a dict with distinct logical names gives
back its sparse entries followed by its dense entries. -/
theorem recompose_decompose (x : ValueMap) (hnd : (keysOf x).Nodup)
    (hnl : ∀ n ∈ keysOf x, nl ∉ n) :
    _recompose_sparse_tensors (_decompose_sparse_tensors x) =
      .ok (sparseEntries x ++ denseEntries x) := by
  have hc := classify_decompose x [] [] hnd hnl (by simp) (by simp)
  rw [List.nil_append, List.nil_append] at hc
  have hbs := buildSparse_decompose x hnd (sparseNames x) []
    ((sparseNames_sublist x).nodup hnd)
    (fun n hn => sparseNames_spec hn)
    (by simp [keysOf_nil])
  rw [List.nil_append, sparseEntries_eq_map hnd] at hbs
  have hbd := buildDense_decompose x hnd (denseNames x) (sparseEntries x)
    ((denseNames_sublist x).nodup hnd)
    (fun n hn => denseNames_spec hn)
    (by
      intro n hn
      rw [keysOf_sparseEntries]
      exact fun hs => sparse_dense_disjoint hnd hs hn)
  rw [denseEntries_eq_map hnd] at hbd
  simp only [_recompose_sparse_tensors, hc, hbs, hbd]

/-- The recomposed dict is Python-`==` to the original dict. -/
theorem recompose_decompose_eqv (x : ValueMap) (hnd : (keysOf x).Nodup) :
    dictEqv (sparseEntries x ++ denseEntries x) x = true := by
  rw [dictEqv, Bool.and_eq_true, List.all_eq_true, List.all_eq_true]
  constructor
  · intro p hp
    rcases List.mem_append.mp hp with hl | hr
    · exact decide_eq_true (mlookup_of_mem_nodup hnd (sparseEntries_subset hl))
    · exact decide_eq_true (mlookup_of_mem_nodup hnd (denseEntries_subset hr))
  · intro p hp
    exact decide_eq_true
      (mlookup_of_mem_nodup (entries_keys_nodup hnd) (mem_entries_of_mem hp))

/-- C1: for every map from logical names to dense or sparse values (with
the distinct keys of a Python dict), recomposing the decomposition gives back
a dict Python-`==` to the original, including when logical names contain the
`$` separator (the universal quantification over `x : ValueMap` places no
restriction on the characters of the names). -/
theorem c1_roundtrip_counterexample :
    _recompose_sparse_tensors (_decompose_sparse_tensors
        [("a\nb".data, LogicalValue.dense 1)]) =
      .error (.unrecognizedKey "a\nb$dense_tensor".data) ∧
    ∀ y, _recompose_sparse_tensors (_decompose_sparse_tensors
        [("a\nb".data, LogicalValue.dense 1)]) ≠ Except.ok y := by
  have hval : _recompose_sparse_tensors (_decompose_sparse_tensors
      [("a\nb".data, LogicalValue.dense 1)]) =
      .error (.unrecognizedKey "a\nb$dense_tensor".data) := by rfl
  refine ⟨hval, fun y h => ?_⟩
  rw [hval] at h
  cases h

theorem c1_decompose_recompose_roundtrip (x : ValueMap)
    (hx : (keysOf x).Nodup) (hnl : ∀ n ∈ keysOf x, nl ∉ n) :
    ∃ y, _recompose_sparse_tensors (_decompose_sparse_tensors x) = Except.ok y ∧
      dictEqv y x = true :=
  ⟨sparseEntries x ++ denseEntries x, recompose_decompose x hx hnl,
    recompose_decompose_eqv x hx⟩

theorem c1_decompose_recompose_roundtrip_witness :
    ∃ y, _recompose_sparse_tensors (_decompose_sparse_tensors
        [("a".data, .dense 1), ("b$values".data, .sparse 2 3 4)]) = Except.ok y ∧
      dictEqv y [("a".data, .dense 1), ("b$values".data, .sparse 2 3 4)] = true :=
  c1_decompose_recompose_roundtrip
    [("a".data, .dense 1), ("b$values".data, .sparse 2 3 4)] (by decide)
    (by decide)

theorem decompose_length (x : ValueMap) :
    (_decompose_sparse_tensors x).length =
      (denseNames x).length + 3 * (sparseNames x).length := by
  induction x with
  | nil => rfl
  | cons p rest ih =>
    obtain ⟨k, v⟩ := p
    cases v with
    | sparse i vv s =>
      rw [_decompose_sparse_tensors, List.length_append, ih, sparseNames,
        denseNames, List.length_cons]
      show 3 + _ = _
      omega
    | dense t =>
      rw [_decompose_sparse_tensors, List.length_append, ih, sparseNames,
        denseNames, List.length_cons]
      show 1 + _ = _
      omega

theorem decompose_keys_nodup {x : ValueMap} (hnd : (keysOf x).Nodup) :
    (keysOf (_decompose_sparse_tensors x)).Nodup := by
  induction x with
  | nil => exact List.nodup_nil
  | cons p rest ih =>
    obtain ⟨k, v⟩ := p
    rw [keysOf_cons, List.nodup_cons] at hnd
    rw [_decompose_sparse_tensors, keysOf_append]
    refine List.Nodup.append ?_ (ih hnd.2) ?_
    · cases v with
      | dense t => simp [decomposeEntry, keysOf_cons, keysOf_nil]
      | sparse i vv s =>
        simp only [decomposeEntry, keysOf_cons, keysOf_nil, List.nodup_cons,
          List.mem_cons, List.not_mem_nil, or_false, List.nodup_nil, and_true,
          not_or, List.append_cancel_left_eq]
        refine ⟨⟨?_, ?_⟩, ?_⟩ <;> decide
    · intro a hablock harest
      have hshape : ∃ sfx ∈ allSfxs, a = k ++ sep :: sfx := by
        cases v with
        | dense t =>
          simp only [decomposeEntry, keysOf_cons, keysOf_nil,
            List.mem_singleton] at hablock
          exact ⟨sfxTensor, by simp [allSfxs], hablock⟩
        | sparse i vv s =>
          simp only [decomposeEntry, keysOf_cons, keysOf_nil, List.mem_cons,
            List.not_mem_nil, or_false] at hablock
          rcases hablock with rfl | rfl | rfl
          · exact ⟨sfxIndices, by simp [allSfxs], rfl⟩
          · exact ⟨sfxValues, by simp [allSfxs], rfl⟩
          · exact ⟨sfxShape, by simp [allSfxs], rfl⟩
      obtain ⟨sfx, hsfx, rfl⟩ := hshape
      exact not_mem_decompose hsfx hnd.1 harest

/-- C7: the function `_decompose_sparse_tensors` is total (its type is `ValueMap →
TensorMap`, with no error outcome); on a dict with `N` dense and `M` sparse
entries it produces exactly `N + 3M` keys; every sparse entry contributes its
three suffixed keys and every dense entry its single suffixed key; the
produced keys are pairwise distinct, and each decodes to a unique
`(logicalName, suffix)` pair. -/
theorem c7_decompose_key_partition (x : ValueMap) (hx : (keysOf x).Nodup) :
    (_decompose_sparse_tensors x).length =
        (denseNames x).length + 3 * (sparseNames x).length ∧
      (keysOf (_decompose_sparse_tensors x)).Nodup ∧
      (∀ k i v s, (k, LogicalValue.sparse i v s) ∈ x →
        (k ++ sep :: sfxIndices) ∈ keysOf (_decompose_sparse_tensors x) ∧
        (k ++ sep :: sfxValues) ∈ keysOf (_decompose_sparse_tensors x) ∧
        (k ++ sep :: sfxShape) ∈ keysOf (_decompose_sparse_tensors x)) ∧
      (∀ k t, (k, LogicalValue.dense t) ∈ x →
        (k ++ sep :: sfxTensor) ∈ keysOf (_decompose_sparse_tensors x)) ∧
      (∀ key ∈ keysOf (_decompose_sparse_tensors x), ∃ name sfx,
        name ∈ keysOf x ∧ sfx ∈ allSfxs ∧ key = name ++ sep :: sfx ∧
        ∀ name' sfx', sep ∉ sfx' → key = name' ++ sep :: sfx' →
          name' = name ∧ sfx' = sfx) := by
  refine ⟨decompose_length x, decompose_keys_nodup hx, ?_, ?_, ?_⟩
  · intro k i v s hmem
    obtain ⟨h1, h2, h3⟩ := decompose_lookup_sparse hx hmem
    exact ⟨mlookup_isSome_iff_mem_keys.mp (by rw [h1]; rfl),
      mlookup_isSome_iff_mem_keys.mp (by rw [h2]; rfl),
      mlookup_isSome_iff_mem_keys.mp (by rw [h3]; rfl)⟩
  · intro k t hmem
    have h1 := decompose_lookup_dense hx hmem
    exact mlookup_isSome_iff_mem_keys.mp (by rw [h1]; rfl)
  · intro key hkey
    obtain ⟨name, sfx, hn, hs, heq⟩ := decompose_keys_shape hkey
    refine ⟨name, sfx, hn, hs, heq, ?_⟩
    intro name' sfx' hsep' heq'
    exact split_unique hsep' (sep_not_mem_sfx sfx hs) (heq' ▸ heq)

theorem c7_decompose_key_partition_witness :
    (_decompose_sparse_tensors
          [("a".data, .dense 1), ("b".data, .sparse 2 3 4)]).length =
        (denseNames [("a".data, .dense 1), ("b".data, .sparse 2 3 4)]).length +
          3 * (sparseNames [("a".data, .dense 1), ("b".data, .sparse 2 3 4)]).length ∧
      (keysOf (_decompose_sparse_tensors
        [("a".data, .dense 1), ("b".data, .sparse 2 3 4)])).Nodup ∧
      (∀ k i v s, (k, LogicalValue.sparse i v s) ∈
          [("a".data, LogicalValue.dense 1), ("b".data, LogicalValue.sparse 2 3 4)] →
        (k ++ sep :: sfxIndices) ∈ keysOf (_decompose_sparse_tensors
          [("a".data, .dense 1), ("b".data, .sparse 2 3 4)]) ∧
        (k ++ sep :: sfxValues) ∈ keysOf (_decompose_sparse_tensors
          [("a".data, .dense 1), ("b".data, .sparse 2 3 4)]) ∧
        (k ++ sep :: sfxShape) ∈ keysOf (_decompose_sparse_tensors
          [("a".data, .dense 1), ("b".data, .sparse 2 3 4)])) ∧
      (∀ k t, (k, LogicalValue.dense t) ∈
          [("a".data, LogicalValue.dense 1), ("b".data, LogicalValue.sparse 2 3 4)] →
        (k ++ sep :: sfxTensor) ∈ keysOf (_decompose_sparse_tensors
          [("a".data, .dense 1), ("b".data, .sparse 2 3 4)])) ∧
      (∀ key ∈ keysOf (_decompose_sparse_tensors
          [("a".data, .dense 1), ("b".data, .sparse 2 3 4)]), ∃ name sfx,
        name ∈ keysOf [("a".data, LogicalValue.dense 1),
            ("b".data, LogicalValue.sparse 2 3 4)] ∧
          sfx ∈ allSfxs ∧ key = name ++ sep :: sfx ∧
        ∀ name' sfx', sep ∉ sfx' → key = name' ++ sep :: sfx' →
          name' = name ∧ sfx' = sfx) :=
  c7_decompose_key_partition
    [("a".data, .dense 1), ("b".data, .sparse 2 3 4)] (by decide)

theorem lookupTensor_error {m : TensorMap} {k : Name} {e : RecomposeError}
    (h : lookupTensor m k = .error e) : e = .missingKey k := by
  rw [lookupTensor] at h
  cases hm : mlookup m k with
  | some t => rw [hm] at h; cases h
  | none => rw [hm] at h; cases h; rfl

theorem lookupTensor_ok_isSome {m : TensorMap} {k : Name} {t : Tensor}
    (h : lookupTensor m k = .ok t) : (mlookup m k).isSome = true := by
  rw [lookupTensor] at h
  cases hm : mlookup m k with
  | some t' => rfl
  | none => rw [hm] at h; cases h

theorem buildSparse_error_shape {m : TensorMap} {names : List Name}
    {acc : ValueMap} {e : RecomposeError}
    (h : buildSparse m acc names = .error e) : ∃ k, e = .missingKey k := by
  induction names generalizing acc with
  | nil => cases h
  | cons n rest ih =>
    rw [buildSparse] at h
    cases hi : lookupTensor m (n ++ sep :: sfxIndices) with
    | error e1 =>
      rw [hi] at h
      cases h
      exact ⟨_, lookupTensor_error hi⟩
    | ok i =>
      rw [hi] at h
      cases hv : lookupTensor m (n ++ sep :: sfxValues) with
      | error e1 =>
        rw [hv] at h
        cases h
        exact ⟨_, lookupTensor_error hv⟩
      | ok v =>
        rw [hv] at h
        cases hsh : lookupTensor m (n ++ sep :: sfxShape) with
        | error e1 =>
          rw [hsh] at h
          cases h
          exact ⟨_, lookupTensor_error hsh⟩
        | ok sv =>
          rw [hsh] at h
          exact ih h

theorem buildDense_error_shape {m : TensorMap} {names : List Name}
    {acc : ValueMap} {e : RecomposeError}
    (h : buildDense m acc names = .error e) : ∃ k, e = .missingKey k := by
  induction names generalizing acc with
  | nil => cases h
  | cons n rest ih =>
    rw [buildDense] at h
    split at h
    · exact ih h
    · rename_i e' heq
      cases h
      exact ⟨_, lookupTensor_error heq⟩

theorem classify_ok_of_all {keys : List Name}
    (h : ∀ key ∈ keys, recognizedKey key = true) :
    ∀ sk dk, ∃ pr, classifyKeys sk dk keys = .ok pr := by
  induction keys with
  | nil => exact fun sk dk => ⟨(sk, dk), rfl⟩
  | cons key rest ih =>
    intro sk dk
    have hk := h key (List.mem_cons_self _ _)
    rw [recognizedKey, Bool.or_eq_true, Option.isSome_iff_exists,
      Option.isSome_iff_exists] at hk
    have hrest := fun key' h' => h key' (List.mem_cons_of_mem _ h')
    rcases hk with ⟨p, hp⟩ | ⟨p, hp⟩
    · rw [classifyKeys, hp]
      exact ih hrest _ _
    · cases hs : sparseTensorNameMatch key with
      | some q => rw [classifyKeys, hs]; exact ih hrest _ _
      | none => rw [classifyKeys, hs, hp]; exact ih hrest _ _

theorem classify_error_shape {keys : List Name} {sk dk : List Name}
    {e : RecomposeError} (h : classifyKeys sk dk keys = .error e) :
    ∃ key ∈ keys, sparseTensorNameMatch key = none ∧
      denseTensorNameMatch key = none ∧ e = .unrecognizedKey key := by
  induction keys generalizing sk dk with
  | nil => cases h
  | cons key rest ih =>
    rw [classifyKeys] at h
    cases hs : sparseTensorNameMatch key with
    | some p =>
      rw [hs] at h
      obtain ⟨key', hmem, h1, h2, h3⟩ := ih h
      exact ⟨key', List.mem_cons_of_mem _ hmem, h1, h2, h3⟩
    | none =>
      rw [hs] at h
      cases hd : denseTensorNameMatch key with
      | some p =>
        rw [hd] at h
        obtain ⟨key', hmem, h1, h2, h3⟩ := ih h
        exact ⟨key', List.mem_cons_of_mem _ hmem, h1, h2, h3⟩
      | none =>
        rw [hd] at h
        cases h
        exact ⟨key, List.mem_cons_self _ _, hs, hd, rfl⟩

theorem classify_error_of_bad {keys : List Name} {key : Name}
    (hmem : key ∈ keys) (hs : sparseTensorNameMatch key = none)
    (hd : denseTensorNameMatch key = none) :
    ∀ sk dk, ∃ key', classifyKeys sk dk keys = .error (.unrecognizedKey key') := by
  induction keys with
  | nil => cases hmem
  | cons k rest ih =>
    intro sk dk
    rcases List.mem_cons.mp hmem with rfl | htail
    · rw [classifyKeys, hs, hd]
      exact ⟨key, rfl⟩
    · cases hks : sparseTensorNameMatch k with
      | some p => rw [classifyKeys, hks]; exact ih htail _ _
      | none =>
        cases hkd : denseTensorNameMatch k with
        | some p => rw [classifyKeys, hks, hkd]; exact ih htail _ _
        | none => rw [classifyKeys, hks, hkd]; exact ⟨k, rfl⟩

/-- C8: the function `_recompose_sparse_tensors` fails with the unrecognized-key error
exactly when some key of its input matches neither `(.*)\$(indices|values|dense_shape)$`
nor `(.*)\$dense_tensor$`; both patterns take the last `$`-delimited token as
the suffix, being anchored at the end with a greedy stem. -/
theorem c8_recompose_unrecognized_iff (m : TensorMap) :
    (∃ k, _recompose_sparse_tensors m = .error (.unrecognizedKey k)) ↔
      ∃ key ∈ keysOf m, sparseTensorNameMatch key = none ∧
        denseTensorNameMatch key = none := by
  constructor
  · rintro ⟨k, hk⟩
    cases hc : classifyKeys [] [] (keysOf m) with
    | error e =>
      obtain ⟨key, hmem, h1, h2, h3⟩ := classify_error_shape hc
      exact ⟨key, hmem, h1, h2⟩
    | ok pr =>
      obtain ⟨sk, dk⟩ := pr
      have hrec : _recompose_sparse_tensors m =
          (match buildSparse m [] sk with
            | .error e => .error e
            | .ok result => buildDense m result dk) := by
        rw [_recompose_sparse_tensors, hc]
      rw [hrec] at hk
      cases hbs : buildSparse m [] sk with
      | error e =>
        rw [hbs] at hk
        cases hk
        obtain ⟨k', hk'⟩ := buildSparse_error_shape hbs
        cases hk'
      | ok r =>
        rw [hbs] at hk
        obtain ⟨k', hk'⟩ := buildDense_error_shape hk
        cases hk'
  · rintro ⟨key, hmem, hs, hd⟩
    obtain ⟨key', hkey'⟩ := classify_error_of_bad hmem hs hd [] []
    refine ⟨key', ?_⟩
    rw [_recompose_sparse_tensors, hkey']

theorem buildSparse_ok_isSome {m : TensorMap} {names : List Name}
    {acc r : ValueMap} (h : buildSparse m acc names = .ok r) :
    ∀ n ∈ names, (mlookup m (n ++ sep :: sfxIndices)).isSome = true ∧
      (mlookup m (n ++ sep :: sfxValues)).isSome = true ∧
      (mlookup m (n ++ sep :: sfxShape)).isSome = true := by
  induction names generalizing acc with
  | nil => intro n hn; cases hn
  | cons n rest ih =>
    intro n' hn'
    rw [buildSparse] at h
    cases hi : lookupTensor m (n ++ sep :: sfxIndices) with
    | error e1 => rw [hi] at h; cases h
    | ok i =>
      rw [hi] at h
      cases hv : lookupTensor m (n ++ sep :: sfxValues) with
      | error e1 => rw [hv] at h; cases h
      | ok v =>
        rw [hv] at h
        cases hsh : lookupTensor m (n ++ sep :: sfxShape) with
        | error e1 => rw [hsh] at h; cases h
        | ok sv =>
          rw [hsh] at h
          rcases List.mem_cons.mp hn' with rfl | htail
          · exact ⟨lookupTensor_ok_isSome hi, lookupTensor_ok_isSome hv,
              lookupTensor_ok_isSome hsh⟩
          · exact ih h n' htail

theorem classify_ok_sparse_sub {keys sk dk sk' dk' : List Name}
    (h : classifyKeys sk dk keys = .ok (sk', dk')) : ∀ p ∈ sk, p ∈ sk' := by
  induction keys generalizing sk dk with
  | nil => cases h; exact fun p hp => hp
  | cons key rest ih =>
    rw [classifyKeys] at h
    cases hs : sparseTensorNameMatch key with
    | some q =>
      rw [hs] at h
      intro p hp
      refine ih h p ?_
      split
      · exact hp
      · exact List.mem_append_left _ hp
    | none =>
      rw [hs] at h
      cases hd : denseTensorNameMatch key with
      | some q => rw [hd] at h; exact ih h
      | none => rw [hd] at h; cases h

theorem classify_ok_mem_sparse {keys sk dk sk' dk' : List Name} {key p : Name}
    (h : classifyKeys sk dk keys = .ok (sk', dk')) (hmem : key ∈ keys)
    (hp : sparseTensorNameMatch key = some p) : p ∈ sk' := by
  induction keys generalizing sk dk with
  | nil => cases hmem
  | cons k rest ih =>
    rw [classifyKeys] at h
    rcases List.mem_cons.mp hmem with rfl | htail
    · rw [hp] at h
      refine classify_ok_sparse_sub h p ?_
      split
      · assumption
      · exact List.mem_append_right _ (List.mem_singleton.mpr rfl)
    · cases hs : sparseTensorNameMatch k with
      | some q => rw [hs] at h; exact ih h htail
      | none =>
        rw [hs] at h
        cases hd : denseTensorNameMatch k with
        | some q => rw [hd] at h; exact ih h htail
        | none => rw [hd] at h; cases h

/-- C10: when every key of the map is recognized but some name carries a
sparse-part key while one of its two sparse siblings is absent, the
recomposition fails with the missing-key (`KeyError`) failure of the sibling
subscript, not with the unrecognized-key `ValueError`. -/
theorem c10_recompose_missing_sibling (m : TensorMap) (name s s' : Name)
    (hall : ∀ key ∈ keysOf m, recognizedKey key = true)
    (hs : s ∈ sparseSfxs) (hs' : s' ∈ sparseSfxs)
    (hmem : (name ++ sep :: s) ∈ keysOf m)
    (hmiss : mlookup m (name ++ sep :: s') = none) :
    ∃ k, _recompose_sparse_tensors m = .error (.missingKey k) := by
  obtain ⟨⟨sk, dk⟩, hc⟩ := classify_ok_of_all hall [] []
  have hsall : s ∈ allSfxs := sparseSfxs_sub_allSfxs s hs
  have hanchor : anchorTrim (name ++ sep :: s) = name ++ sep :: s :=
    anchorTrim_append_sfx name hsall
  have hmatch : sparseTensorNameMatch (name ++ sep :: s) = some name := by
    have hrec := hall _ hmem
    rw [recognizedKey, Bool.or_eq_true, Option.isSome_iff_exists,
      Option.isSome_iff_exists] at hrec
    rcases hrec with ⟨p, hp⟩ | ⟨p, hp⟩
    · obtain ⟨hnlp, hsplit⟩ := sparse_match_inv hp
      rw [hanchor] at hsplit
      have hps : p = name := by
        rcases hsplit with hsplit | hsplit | hsplit
        · exact (split_unique (sep_not_mem_sfx s hsall) sep_not_mem_indices
            hsplit).1.symm
        · exact (split_unique (sep_not_mem_sfx s hsall) sep_not_mem_values
            hsplit).1.symm
        · exact (split_unique (sep_not_mem_sfx s hsall) sep_not_mem_shape
            hsplit).1.symm
      rw [hps] at hp
      exact hp
    · obtain ⟨hsplit, hnlp⟩ := dense_match_inv hp
      rw [hanchor] at hsplit
      have hst := (split_unique (sep_not_mem_sfx s hsall) sep_not_mem_tensor
        hsplit).2
      exact absurd hst (sparse_sfx_ne_tensor s hs)
  have hnamesk : name ∈ sk := classify_ok_mem_sparse hc hmem hmatch
  cases hbs : buildSparse m [] sk with
  | ok r =>
    exfalso
    obtain ⟨h1, h2, h3⟩ := buildSparse_ok_isSome hbs name hnamesk
    rcases (by simpa [sparseSfxs] using hs' : s' = sfxIndices ∨ s' = sfxValues ∨ s' = sfxShape)
      with rfl | rfl | rfl
    · rw [hmiss] at h1; cases h1
    · rw [hmiss] at h2; cases h2
    · rw [hmiss] at h3; cases h3
  | error e =>
    obtain ⟨k, rfl⟩ := buildSparse_error_shape hbs
    refine ⟨k, ?_⟩
    have hrec : _recompose_sparse_tensors m =
        (match buildSparse m [] sk with
          | .error e => .error e
          | .ok result => buildDense m result dk) := by
      rw [_recompose_sparse_tensors, hc]
    rw [hrec, hbs]

theorem c10_recompose_missing_sibling_witness :
    ∃ k, _recompose_sparse_tensors [("a$indices".data, 1)] =
      .error (.missingKey k) :=
  c10_recompose_missing_sibling [("a$indices".data, 1)] "a".data
    sfxIndices sfxValues (by decide) (by decide) (by decide) (by decide)
    (by decide)

theorem resolveOutputs_spec {input_map : TensorMap} {g : Graph} {scope : Name}
    {sig : List (Name × Name)} {outs : TensorMap}
    (h : resolveOutputs input_map g scope sig = .ok outs) :
    outs.length = sig.length ∧
    ∀ p ∈ sig.zip outs,
      p.2.1 = p.1.1 ∧
      (∀ t, mlookup input_map p.1.2 = some t → p.2.2 = t) ∧
      (mlookup input_map p.1.2 = none →
        get_tensor_by_name g (prepend_name_scope p.1.2 scope) = some p.2.2) := by
  induction sig generalizing outs with
  | nil =>
    rw [resolveOutputs] at h
    cases h
    exact ⟨rfl, by intro p hp; cases hp⟩
  | cons e rest ih =>
    obtain ⟨ln, tn⟩ := e
    rw [resolveOutputs] at h
    cases hl : lookup_remapped_tensor input_map g scope tn with
    | error e1 => rw [hl] at h; cases h
    | ok t =>
      rw [hl] at h
      cases hr : resolveOutputs input_map g scope rest with
      | error e1 => rw [hr] at h; cases h
      | ok r =>
        rw [hr] at h
        cases h
        obtain ⟨hlen, hall⟩ := ih hr
        refine ⟨by rw [List.length_cons, List.length_cons, hlen], ?_⟩
        intro p hp
        rw [List.zip_cons_cons] at hp
        rcases List.mem_cons.mp hp with rfl | htail
        · refine ⟨rfl, ?_, ?_⟩
          · intro t' hml
            rw [lookup_remapped_tensor, hml] at hl
            cases hl
            rfl
          · intro hml
            rw [lookup_remapped_tensor, hml] at hl
            cases hg : get_tensor_by_name g (prepend_name_scope tn scope) with
            | some tg => rw [hg] at hl; cases hl; rfl
            | none => rw [hg] at hl; cases hl
        · exact hall p htail

theorem resolveUnbound_spec {g : Graph} {scope : Name} {bound : List Name}
    {sig : List (Name × Name)} {ub : TensorMap}
    (h : resolveUnbound g scope bound sig = .ok ub) :
    ub.length = (sig.filter (fun e => decide (e.1 ∉ bound))).length ∧
    ∀ p ∈ (sig.filter (fun e => decide (e.1 ∉ bound))).zip ub,
      p.2.1 = p.1.1 ∧
      get_tensor_by_name g (prepend_name_scope p.1.2 scope) = some p.2.2 := by
  induction sig generalizing ub with
  | nil =>
    rw [resolveUnbound] at h
    cases h
    exact ⟨rfl, by intro p hp; cases hp⟩
  | cons e rest ih =>
    obtain ⟨ln, tn⟩ := e
    rw [resolveUnbound] at h
    by_cases hb : ln ∈ bound
    · rw [if_pos hb] at h
      obtain ⟨hlen, hall⟩ := ih h
      have hfil : ((ln, tn) :: rest).filter (fun e => decide (e.1 ∉ bound)) =
          rest.filter (fun e => decide (e.1 ∉ bound)) := by
        rw [List.filter_cons]
        simp [hb]
      rw [hfil]
      exact ⟨hlen, hall⟩
    · rw [if_neg hb] at h
      cases hg : get_tensor_by_name g (prepend_name_scope tn scope) with
      | none => rw [hg] at h; cases h
      | some t =>
        rw [hg] at h
        cases hr : resolveUnbound g scope bound rest with
        | error e1 => rw [hr] at h; cases h
        | ok r =>
          rw [hr] at h
          cases h
          obtain ⟨hlen, hall⟩ := ih hr
          have hfil : ((ln, tn) :: rest).filter (fun e => decide (e.1 ∉ bound)) =
              (ln, tn) :: rest.filter (fun e => decide (e.1 ∉ bound)) := by
            rw [List.filter_cons]
            simp [hb]
          rw [hfil]
          refine ⟨by rw [List.length_cons, List.length_cons, hlen], ?_⟩
          intro p hp
          rw [List.zip_cons_cons] at hp
          rcases List.mem_cons.mp hp with rfl | htail
          · refine ⟨rfl, ?_⟩
            show get_tensor_by_name g (prepend_name_scope tn scope) = some t
            exact hg
          · exact hall p htail

theorem resolveOutputs_error_shape {input_map : TensorMap} {g : Graph}
    {scope : Name} {sig : List (Name × Name)} {e : ApplyError}
    (h : resolveOutputs input_map g scope sig = .error e) :
    ∃ tn, e = .importInconsistent tn := by
  induction sig with
  | nil => cases h
  | cons p rest ih =>
    obtain ⟨ln, tn⟩ := p
    rw [resolveOutputs] at h
    cases hl : lookup_remapped_tensor input_map g scope tn with
    | error e1 =>
      rw [hl] at h
      cases h
      rw [lookup_remapped_tensor] at hl
      cases hml : mlookup input_map tn with
      | some t => rw [hml] at hl; cases hl
      | none =>
        rw [hml] at hl
        cases hg : get_tensor_by_name g (prepend_name_scope tn scope) with
        | some t => rw [hg] at hl; cases hl
        | none => rw [hg] at hl; cases hl; exact ⟨tn, rfl⟩
    | ok t =>
      rw [hl] at h
      cases hr : resolveOutputs input_map g scope rest with
      | error e1 => rw [hr] at h; cases h; exact ih hr
      | ok r => rw [hr] at h; cases h

theorem resolveUnbound_error_shape {g : Graph} {scope : Name}
    {bound : List Name} {sig : List (Name × Name)} {e : ApplyError}
    (h : resolveUnbound g scope bound sig = .error e) :
    ∃ tn, e = .importInconsistent tn := by
  induction sig with
  | nil => cases h
  | cons p rest ih =>
    obtain ⟨ln, tn⟩ := p
    rw [resolveUnbound] at h
    by_cases hb : ln ∈ bound
    · rw [if_pos hb] at h
      exact ih h
    · rw [if_neg hb] at h
      cases hg : get_tensor_by_name g (prepend_name_scope tn scope) with
      | none => rw [hg] at h; cases h; exact ⟨tn, rfl⟩
      | some t =>
        rw [hg] at h
        cases hr : resolveUnbound g scope bound rest with
        | error e1 => rw [hr] at h; cases h; exact ih hr
        | ok r => rw [hr] at h; cases h

/-- Inversion of a successful `partially_apply_saved_transform` run: the
artifact had no assets, no caller input was unexpected, the returned graph is
the merged graph, and the outputs and unbound inputs come from the two
resolution passes followed by recomposition. -/
theorem papply_ok_inv {art : TransformArtifact} {x : ValueMap} {g : Graph}
    {u o : ValueMap} {g2 : Graph}
    (h : partially_apply_saved_transform art x g = (.ok (u, o), g2)) :
    art.hasAssets = false ∧
    unexpected_inputs_of art.input_signature (_decompose_sparse_tensors x) = [] ∧
    g2 = papply_merged_graph art g ∧
    ∃ outs ub,
      resolveOutputs
          (papply_input_map art.input_signature (_decompose_sparse_tensors x))
          (papply_merged_graph art g) (graph_unique_name g)
          art.output_signature = .ok outs ∧
        resolveUnbound (papply_merged_graph art g) (graph_unique_name g)
          (keysOf (_decompose_sparse_tensors x)) art.input_signature = .ok ub ∧
        _recompose_sparse_tensors outs = .ok o ∧
        _recompose_sparse_tensors ub = .ok u := by
  simp only [partially_apply_saved_transform] at h
  split at h
  · simp at h
  · rename_i insig outsig heq
    have hA : art.hasAssets = false ∧ insig = art.input_signature ∧
        outsig = art.output_signature := by
      rw [_load_transform_saved_model] at heq
      cases hA : art.hasAssets with
      | true => rw [hA] at heq; simp at heq
      | false =>
        rw [hA] at heq
        simp only [Bool.false_eq_true, if_false, Except.ok.injEq,
          Prod.mk.injEq] at heq
        exact ⟨rfl, heq.1.symm, heq.2.symm⟩
    obtain ⟨hA, rfl, rfl⟩ := hA
    split at h
    · simp at h
    · rename_i hne
      have hU : unexpected_inputs_of art.input_signature
          (_decompose_sparse_tensors x) = [] := by
        rcases hE : (unexpected_inputs_of art.input_signature
            (_decompose_sparse_tensors x)).isEmpty with _ | _
        · exact absurd hE hne
        · exact List.isEmpty_iff.mp hE
      refine ⟨hA, hU, ?_⟩
      rw [papply_merged_graph]
      split at h
      · simp at h
      · rename_i outs hro
        split at h
        · simp at h
        · rename_i ub hru
          split at h
          · simp at h
          · rename_i o' hco
            split at h
            · simp at h
            · rename_i u' hcu
              simp only [Prod.mk.injEq, Except.ok.injEq] at h
              obtain ⟨⟨hu, ho⟩, hg2⟩ := h
              subst hu
              subst ho
              exact ⟨hg2.symm, outs, ub, hro, hru, hco, hcu⟩

example :
    partially_apply_saved_transform artifactAB [("a".data, .dense 42)] hostGraph0 =
      (.ok ([("b".data, .dense 1001)], [("c".data, .dense 1002)]),
        papply_merged_graph artifactAB hostGraph0) := by rfl

example :
    partially_apply_saved_transform artifactAB
        [("a".data, .dense 42), ("b".data, .dense 43)] hostGraph0 =
      (.ok ([], [("c".data, .dense 1002)]),
        papply_merged_graph artifactAB hostGraph0) := by rfl

/-- C2: in a successful `partially_apply_saved_transform` run, the decomposed
outputs resolve one entry per output-signature entry, in order; an entry
whose underlying tensor name is a key of the substitution map is the
caller-substituted tensor, and any other entry is found in the merged host
graph under the freshly allocated scope prefix. -/
theorem c2_output_resolution (art : TransformArtifact) (x : ValueMap)
    (g : Graph) (u o : ValueMap) (g2 : Graph)
    (h : partially_apply_saved_transform art x g = (.ok (u, o), g2)) :
    ∃ outs,
      resolveOutputs
          (papply_input_map art.input_signature (_decompose_sparse_tensors x))
          (papply_merged_graph art g) (graph_unique_name g)
          art.output_signature = .ok outs ∧
        _recompose_sparse_tensors outs = .ok o ∧
        outs.length = art.output_signature.length ∧
        ∀ p ∈ art.output_signature.zip outs,
          p.2.1 = p.1.1 ∧
          (∀ t, mlookup (papply_input_map art.input_signature
              (_decompose_sparse_tensors x)) p.1.2 = some t → p.2.2 = t) ∧
          (mlookup (papply_input_map art.input_signature
              (_decompose_sparse_tensors x)) p.1.2 = none →
            get_tensor_by_name (papply_merged_graph art g)
              (prepend_name_scope p.1.2 (graph_unique_name g)) = some p.2.2) := by
  obtain ⟨-, -, -, outs, ub, hro, hru, hco, hcu⟩ := papply_ok_inv h
  obtain ⟨hlen, hall⟩ := resolveOutputs_spec hro
  exact ⟨outs, hro, hco, hlen, hall⟩

theorem c2_output_resolution_witness :
    ∃ outs,
      resolveOutputs
          (papply_input_map artifactAB.input_signature
            (_decompose_sparse_tensors [("a".data, .dense 42)]))
          (papply_merged_graph artifactAB hostGraph0)
          (graph_unique_name hostGraph0)
          artifactAB.output_signature = .ok outs ∧
        _recompose_sparse_tensors outs = .ok [("c".data, .dense 1002)] ∧
        outs.length = artifactAB.output_signature.length ∧
        ∀ p ∈ artifactAB.output_signature.zip outs,
          p.2.1 = p.1.1 ∧
          (∀ t, mlookup (papply_input_map artifactAB.input_signature
              (_decompose_sparse_tensors [("a".data, .dense 42)])) p.1.2 =
                some t → p.2.2 = t) ∧
          (mlookup (papply_input_map artifactAB.input_signature
              (_decompose_sparse_tensors [("a".data, .dense 42)])) p.1.2 =
                none →
            get_tensor_by_name (papply_merged_graph artifactAB hostGraph0)
              (prepend_name_scope p.1.2 (graph_unique_name hostGraph0)) =
                some p.2.2) :=
  c2_output_resolution artifactAB [("a".data, .dense 42)] hostGraph0
    [("b".data, .dense 1001)] [("c".data, .dense 1002)]
    (papply_merged_graph artifactAB hostGraph0) (by rfl)

/-- C5: in a successful `partially_apply_saved_transform` run, the decomposed
unbound inputs contain exactly one entry per input-signature entry whose
flattened logical name the caller did not supply, in order, each resolved by
the scope-prefixed lookup in the merged host graph. -/
theorem c5_unbound_resolution (art : TransformArtifact) (x : ValueMap)
    (g : Graph) (u o : ValueMap) (g2 : Graph)
    (h : partially_apply_saved_transform art x g = (.ok (u, o), g2)) :
    ∃ ub,
      resolveUnbound (papply_merged_graph art g) (graph_unique_name g)
          (keysOf (_decompose_sparse_tensors x)) art.input_signature = .ok ub ∧
        _recompose_sparse_tensors ub = .ok u ∧
        ub.length = (art.input_signature.filter (fun e =>
          decide (e.1 ∉ keysOf (_decompose_sparse_tensors x)))).length ∧
        ∀ p ∈ (art.input_signature.filter (fun e =>
            decide (e.1 ∉ keysOf (_decompose_sparse_tensors x)))).zip ub,
          p.2.1 = p.1.1 ∧
          get_tensor_by_name (papply_merged_graph art g)
            (prepend_name_scope p.1.2 (graph_unique_name g)) = some p.2.2 := by
  obtain ⟨-, -, -, outs, ub, hro, hru, hco, hcu⟩ := papply_ok_inv h
  obtain ⟨hlen, hall⟩ := resolveUnbound_spec hru
  exact ⟨ub, hru, hcu, hlen, hall⟩

theorem c5_unbound_resolution_witness :
    (∃ ub,
      resolveUnbound (papply_merged_graph artifactAB hostGraph0)
          (graph_unique_name hostGraph0)
          (keysOf (_decompose_sparse_tensors [("a".data, .dense 42)]))
          artifactAB.input_signature = .ok ub ∧
        _recompose_sparse_tensors ub = .ok [("b".data, .dense 1001)] ∧
        ub.length = (artifactAB.input_signature.filter (fun e =>
          decide (e.1 ∉ keysOf
            (_decompose_sparse_tensors [("a".data, .dense 42)])))).length ∧
        ∀ p ∈ (artifactAB.input_signature.filter (fun e =>
            decide (e.1 ∉ keysOf
              (_decompose_sparse_tensors [("a".data, .dense 42)])))).zip ub,
          p.2.1 = p.1.1 ∧
          get_tensor_by_name (papply_merged_graph artifactAB hostGraph0)
            (prepend_name_scope p.1.2 (graph_unique_name hostGraph0)) =
              some p.2.2) ∧
    partially_apply_saved_transform artifactAB
        [("a".data, .dense 42), ("b".data, .dense 43)] hostGraph0 =
      (.ok ([], [("c".data, .dense 1002)]),
        papply_merged_graph artifactAB hostGraph0) :=
  ⟨c5_unbound_resolution artifactAB [("a".data, .dense 42)] hostGraph0
      [("b".data, .dense 1001)] [("c".data, .dense 1002)]
      (papply_merged_graph artifactAB hostGraph0) (by rfl),
    by rfl⟩

/-- C3 counterexample: with an artifact whose logical input signature is a
and caller inputs a, b (dense), the raised error names the flattened key
b$dense_tensor, not the logical name b as the claim states. -/
theorem c3_counterexample :
    partially_apply_saved_transform artifactA
        [("a".data, .dense 42), ("b".data, .dense 43)] hostGraph0 =
      (.error (.unexpectedInputs ["b$dense_tensor".data]), hostGraph0) ∧
    ("b$dense_tensor".data : Name) ≠ ("b".data : Name) :=
  ⟨by rfl, by decide⟩

/-- C3 (amended): when the caller supplies flattened names outside the input
signature, both composition operations fail with the unexpected-inputs error,
naming exactly the offending flattened (decomposed) key set, and the host
graph is returned unchanged. -/
theorem c3_unexpected_inputs_flattened (art : TransformArtifact)
    (x : ValueMap) (g : Graph) (hassets : art.hasAssets = false)
    (hbad : unexpected_inputs_of art.input_signature
      (_decompose_sparse_tensors x) ≠ []) :
    partially_apply_saved_transform art x g =
        (.error (.unexpectedInputs (unexpected_inputs_of art.input_signature
          (_decompose_sparse_tensors x))), g) ∧
      apply_saved_transform art x g =
        (.error (.unexpectedInputs (unexpected_inputs_of art.input_signature
          (_decompose_sparse_tensors x))), g) := by
  have hEmpty : (unexpected_inputs_of art.input_signature
      (_decompose_sparse_tensors x)).isEmpty = false := by
    cases hE : (unexpected_inputs_of art.input_signature
        (_decompose_sparse_tensors x)).isEmpty with
    | true => exact absurd (List.isEmpty_iff.mp hE) hbad
    | false => rfl
  have h1 : partially_apply_saved_transform art x g =
      (.error (.unexpectedInputs (unexpected_inputs_of art.input_signature
        (_decompose_sparse_tensors x))), g) := by
    simp only [partially_apply_saved_transform, _load_transform_saved_model,
      hassets, Bool.false_eq_true, if_false, hEmpty, if_true]
  refine ⟨h1, ?_⟩
  rw [apply_saved_transform, h1]

theorem c3_unexpected_inputs_flattened_witness :
    partially_apply_saved_transform artifactA
        [("a".data, .dense 42), ("b".data, .dense 43)] hostGraph0 =
        (.error (.unexpectedInputs (unexpected_inputs_of
          artifactA.input_signature (_decompose_sparse_tensors
            [("a".data, .dense 42), ("b".data, .dense 43)]))), hostGraph0) ∧
      apply_saved_transform artifactA
        [("a".data, .dense 42), ("b".data, .dense 43)] hostGraph0 =
        (.error (.unexpectedInputs (unexpected_inputs_of
          artifactA.input_signature (_decompose_sparse_tensors
            [("a".data, .dense 42), ("b".data, .dense 43)]))), hostGraph0) :=
  c3_unexpected_inputs_flattened artifactA
    [("a".data, .dense 42), ("b".data, .dense 43)] hostGraph0
    (by rfl) (by decide)

/-- C6: `apply_saved_transform` returns exactly the outputs of
`partially_apply_saved_transform` when nothing stayed unbound, and otherwise
fails with the missing-required-inputs error naming the unresolved logical
names. -/
theorem c6_apply_total_binding (art : TransformArtifact) (x : ValueMap)
    (g : Graph) (u o : ValueMap) (g2 : Graph)
    (h : partially_apply_saved_transform art x g = (.ok (u, o), g2)) :
    (u = [] → apply_saved_transform art x g = (.ok o, g2)) ∧
    (u ≠ [] → apply_saved_transform art x g =
      (.error (.missingRequiredInputs (keysOf u)), g2)) := by
  constructor
  · intro hu
    subst hu
    rw [apply_saved_transform, h]
    rfl
  · intro hu
    rw [apply_saved_transform, h]
    cases u with
    | nil => exact absurd rfl hu
    | cons p rest => rfl

theorem c6_apply_total_binding_witness :
    (([] : ValueMap) = [] →
      apply_saved_transform artifactAB
          [("a".data, .dense 42), ("b".data, .dense 43)] hostGraph0 =
        (.ok [("c".data, .dense 1002)],
          papply_merged_graph artifactAB hostGraph0)) ∧
    (([] : ValueMap) ≠ [] →
      apply_saved_transform artifactAB
          [("a".data, .dense 42), ("b".data, .dense 43)] hostGraph0 =
        (.error (.missingRequiredInputs (keysOf ([] : ValueMap))),
          papply_merged_graph artifactAB hostGraph0)) :=
  c6_apply_total_binding artifactAB
    [("a".data, .dense 42), ("b".data, .dense 43)] hostGraph0
    [] [("c".data, .dense 1002)]
    (papply_merged_graph artifactAB hostGraph0) (by rfl)

theorem papply_snd_cases (art : TransformArtifact) (x : ValueMap) (g : Graph) :
    (partially_apply_saved_transform art x g).2 = g ∨
      ((partially_apply_saved_transform art x g).2 = papply_merged_graph art g ∧
        ∀ s, (partially_apply_saved_transform art x g).1 ≠
          .error (.unexpectedInputs s)) := by
  simp only [partially_apply_saved_transform]
  split
  · exact Or.inl rfl
  · rename_i insig outsig heq
    split
    · exact Or.inl rfl
    · rename_i hne
      have hmerged : import_meta_graph g art.graphTensors (graph_unique_name g) =
          papply_merged_graph art g := rfl
      split
      · rename_i e hro
        obtain ⟨tn, rfl⟩ := resolveOutputs_error_shape hro
        exact Or.inr ⟨hmerged, fun s hs => by cases hs⟩
      · rename_i outs hro
        split
        · rename_i e hru
          obtain ⟨tn, rfl⟩ := resolveUnbound_error_shape hru
          exact Or.inr ⟨hmerged, fun s hs => by cases hs⟩
        · rename_i ub hru
          split
          · exact Or.inr ⟨hmerged, fun s hs => by cases hs⟩
          · rename_i o' hco
            split
            · exact Or.inr ⟨hmerged, fun s hs => by cases hs⟩
            · exact Or.inr ⟨hmerged, fun s hs => by cases hs⟩

/-- C9: when `partially_apply_saved_transform` raises the unexpected-inputs
error, the host graph it returns is the one it was given: the validation runs
and raises strictly before a scope is allocated and before any fragment node
is imported. -/
theorem c9_unexpected_preserves_graph (art : TransformArtifact) (x : ValueMap)
    (g : Graph) (s : List Name)
    (h : (partially_apply_saved_transform art x g).1 =
      .error (.unexpectedInputs s)) :
    (partially_apply_saved_transform art x g).2 = g := by
  rcases papply_snd_cases art x g with hfst | ⟨-, hnone⟩
  · exact hfst
  · exact absurd h (hnone s)

theorem c9_unexpected_preserves_graph_witness :
    (partially_apply_saved_transform artifactA
      [("a".data, .dense 42), ("b".data, .dense 43)] hostGraph0).2 =
      hostGraph0 :=
  c9_unexpected_preserves_graph artifactA
    [("a".data, .dense 42), ("b".data, .dense 43)] hostGraph0
    ["b$dense_tensor".data] (by rfl)

/-- C4: the signature builder rejects an empty or absent input map, and
rejects an absent output map, but accepts an empty output map and builds a
signature from it, contradicting both the claim and its own raise message;
the failing input is inputs x (dense) with outputs the empty dict. -/
theorem c4_empty_outputs_accepted :
    write_saved_transform_from_session [("x".data, .dense 5)] [] =
        .ok { inputs := [("x$dense_tensor".data, 5)], outputs := [] } ∧
      write_saved_transform_from_session [] [("y".data, .dense 6)] =
        .error .emptyInputs ∧
      _predict_signature_def (some [("x$dense_tensor".data, 5)]) none =
        .error .emptyOutputs :=
  ⟨by rfl, by rfl, by rfl⟩

end SavedTransformIO
